import Mathlib

/-
  Verification development for the roBrowserLegacy RemoteClient archive server.

  The JavaScript sources are embedded shallowly:
  JavaScript strings are lists of UTF-16 code units (List Nat, one entry per
  charCodeAt position), byte buffers are lists of byte values (List Nat),
  JavaScript Map objects are association lists in insertion order, and
  external collaborators (the iconv decoder, zlib, the GRF loader library)
  are parameters of the definitions that call them.
-/

set_option maxHeartbeats 1000000

/-- A JavaScript string, as the sequence of its UTF-16 code units
(the values returned by charCodeAt). -/
abbrev JSString := List Nat

/-- Converts a Lean string literal to its code-unit list (all strings used in
the concrete scenarios are in the Basic Multilingual Plane, where code point
and UTF-16 code unit coincide). -/
def jsStr (s : String) : JSString := s.data.map Char.toNat

/-- Lowercasing of one code unit. Models String.prototype.toLowerCase
restricted to the ASCII range; the full JavaScript mapping agrees with this on
ASCII and maps the slash code units 47 and 92 to themselves, which is all the
indexed claims use. -/
def asciiLower (c : Nat) : Nat := if 65 ≤ c ∧ c ≤ 90 then c + 32 else c

/-- Models s.toLowerCase() for the strings handled by the controller. -/
def jsToLowerCase (s : JSString) : JSString := s.map asciiLower

/-- Models s.replace(backslash-global, slash): every code unit 92 becomes 47. -/
def backslashToSlash (s : JSString) : JSString :=
  s.map (fun c => if c = 92 then 47 else c)

/-- Models s.replace(slash-global, backslash): every code unit 47 becomes 92. -/
def slashToBackslash (s : JSString) : JSString :=
  s.map (fun c => if c = 47 then 92 else c)

/-- Flips every slash code unit to the other direction (47 to 92 and 92 to 47),
leaving all other code units unchanged. Used to state slash-insensitivity. -/
def flipSlashes (s : JSString) : JSString :=
  s.map (fun c => if c = 47 then 92 else if c = 92 then 47 else c)

/- ===================== LRUCache (src/utils/LRUCache.js) ===================== -/

/-- One stored cache value: the buffer and its recorded size, exactly the
object literal stored by LRUCache.set. -/
structure CacheItem where
  data : List Nat
  size : Nat
deriving DecidableEq

/-- The mutable fields of an LRUCache instance. The Map is an association
list in insertion order, oldest binding first (Map iteration order). The
bounds maxSize and maxMemoryMB are constructor arguments and appear as
parameters of the operations. -/
structure LRUCache where
  cache : List (JSString × CacheItem)
  currentMemory : Int
  hits : Nat
  misses : Nat
deriving DecidableEq

/-- A freshly constructed cache. -/
def LRUCache.empty : LRUCache := ⟨[], 0, 0, 0⟩

/-- maxMemoryBytes as computed by the constructor: maxMemoryMB * 1024 * 1024. -/
def maxMemoryBytesOf (maxMemoryMB : Nat) : Nat := maxMemoryMB * 1024 * 1024

/-- Map.get on the association list (first binding with the key). -/
def findItem : List (JSString × CacheItem) → JSString → Option CacheItem
  | [], _ => none
  | (k2, it) :: rest, k => if k2 = k then some it else findItem rest k

/-- Map.delete on the association list (removes the binding with the key;
keys are unique in a Map, so removing the first occurrence is exact). -/
def eraseKey : List (JSString × CacheItem) → JSString → List (JSString × CacheItem)
  | [], _ => []
  | (k2, it) :: rest, k => if k2 = k then rest else (k2, it) :: eraseKey rest k

/-- LRUCache.get: on a hit the binding is deleted and re-inserted at the end
(most recently used) and hits is incremented; on a miss, misses is
incremented and null is returned. -/
def LRUCache.get (c : LRUCache) (key : JSString) : Option (List Nat) × LRUCache :=
  match findItem c.cache key with
  | none => (none, { c with misses := c.misses + 1 })
  | some item =>
      (some item.data,
       { c with cache := eraseKey c.cache key ++ [(key, item)], hits := c.hits + 1 })

/-- The eviction loop of LRUCache.set: while the cache is at or above the
entry bound, or admitting size more bytes would exceed the byte budget, and
the cache is nonempty, the oldest binding is removed and its size subtracted
from currentMemory. -/
def evictLoop (maxSize maxMemoryBytes size : Nat) :
    List (JSString × CacheItem) → Int → List (JSString × CacheItem) × Int
  | [], mem => ([], mem)
  | (k, it) :: rest, mem =>
      if maxSize ≤ ((k, it) :: rest).length ∨ (maxMemoryBytes : Int) < mem + size then
        evictLoop maxSize maxMemoryBytes size rest (mem - it.size)
      else ((k, it) :: rest, mem)

/-- LRUCache.set. The admission guard size > maxMemoryBytes * 0.1 is written
as 10 * size > maxMemoryBytes: for every byte budget of the form
maxMemoryMB * 2^20 the double-precision product maxMemoryBytes * 0.1 rounds
so that the two integer comparisons agree. A rejected buffer leaves the
cache untouched. Otherwise the existing binding for the key is removed, the
eviction loop runs, and the new item is appended. -/
def LRUCache.set (maxSize maxMemoryMB : Nat) (c : LRUCache) (key : JSString)
    (data : List Nat) : LRUCache :=
  let size := data.length
  let maxMemoryBytes := maxMemoryBytesOf maxMemoryMB
  if maxMemoryBytes < 10 * size then c
  else
    let removed :=
      match findItem c.cache key with
      | some old => (eraseKey c.cache key, c.currentMemory - old.size)
      | none => (c.cache, c.currentMemory)
    let evicted := evictLoop maxSize maxMemoryBytes size removed.1 removed.2
    { c with cache := evicted.1 ++ [(key, ⟨data, size⟩)],
             currentMemory := evicted.2 + size }

/-- LRUCache.clear: empties the map and resets currentMemory (the hit and
miss counters are not reset by the source). -/
def LRUCache.clear (c : LRUCache) : LRUCache :=
  { c with cache := [], currentMemory := 0 }

/-- One cache operation, for stating properties of arbitrary call sequences. -/
inductive LRUOp where
  | get (key : JSString)
  | set (key : JSString) (data : List Nat)
  | clear
deriving DecidableEq

/-- Applies one operation to the cache state. -/
def lruStep (maxSize maxMemoryMB : Nat) (c : LRUCache) : LRUOp → LRUCache
  | .get key => (LRUCache.get c key).2
  | .set key data => LRUCache.set maxSize maxMemoryMB c key data
  | .clear => LRUCache.clear c

/-- Runs a sequence of cache operations from a state. -/
def lruRun (maxSize maxMemoryMB : Nat) (c : LRUCache) : List LRUOp → LRUCache
  | [] => c
  | op :: ops => lruRun maxSize maxMemoryMB (lruStep maxSize maxMemoryMB c op) ops

/-- Total number of buffer bytes held by the association list. -/
def cacheBytes (cache : List (JSString × CacheItem)) : Nat :=
  (cache.map (fun e => e.2.size)).sum

/-- Well-formedness of a cache state reachable under bounds
(maxSize, maxMemoryBytesOf maxMemoryMB). -/
structure LRUWF (maxSize maxMemoryMB : Nat) (c : LRUCache) : Prop where
  mem_eq : c.currentMemory = (cacheBytes c.cache : Int)
  size_le : c.cache.length ≤ maxSize
  bytes_le : cacheBytes c.cache ≤ maxMemoryBytesOf maxMemoryMB
  item_size : ∀ e ∈ c.cache, e.2.size = e.2.data.length ∧
    10 * e.2.size ≤ maxMemoryBytesOf maxMemoryMB
  keys_nodup : (c.cache.map Prod.fst).Nodup

/- ========== clientController.js: unified file index and resolver ========== -/

/-- Value stored in the unified file index: the owning archive position in
manifest order and the original path as listed by that archive. -/
structure IndexEntry where
  grfIndex : Nat
  originalPath : JSString
deriving DecidableEq

/-- The index Map, an association list in insertion order. -/
abbrev FileIndex := List (JSString × IndexEntry)

/-- Map.get on the index. -/
def idxGet : FileIndex → JSString → Option IndexEntry
  | [], _ => none
  | (k2, v) :: rest, k => if k2 = k then some v else idxGet rest k

/-- Map.has on the index. -/
def idxHas (m : FileIndex) (k : JSString) : Bool := (idxGet m k).isSome

/-- The insertion step of buildFileIndex: a key is bound only when absent,
so the first occurrence wins and later bindings never overwrite. -/
def idxSetIfAbsent (m : FileIndex) (k : JSString) (v : IndexEntry) : FileIndex :=
  if idxHas m k then m else m ++ [(k, v)]

/-- Indexing of one listed file name (buildFileIndex loop body): the name is
bound under its lowercased forward-slash form and under its lowercased
backslash form. -/
def indexOneFile (grfIndex : Nat) (m : FileIndex) (file : JSString) : FileIndex :=
  let normalized := backslashToSlash (jsToLowerCase file)
  let m1 := idxSetIfAbsent m normalized ⟨grfIndex, file⟩
  let normalizedBackslash := slashToBackslash (jsToLowerCase file)
  idxSetIfAbsent m1 normalizedBackslash ⟨grfIndex, file⟩

/-- One loaded archive as the controller sees it: the decoded name of each
entry with its content bytes. -/
structure GrfModel where
  files : List (JSString × List Nat)
deriving DecidableEq

/-- grf.listFiles: the decoded names, in listing order. -/
def GrfModel.listFiles (g : GrfModel) : List JSString := g.files.map Prod.fst

/-- Lookup of a listed name. -/
def grfLookup : List (JSString × List Nat) → JSString → Option (List Nat)
  | [], _ => none
  | (n, content) :: rest, p => if n = p then some content else grfLookup rest p

/-- Modelled from the spec: grf.getFile comes from grfController.js, which is
not among the analyzed sources; per spec section 4.4, get(raw_key) locates
the entry by its raw key and returns its bytes, or a miss for an unknown
key. -/
def GrfModel.getFile (g : GrfModel) (p : JSString) : Option (List Nat) :=
  grfLookup g.files p

/-- Client.buildFileIndex over the archive list starting at position i with
accumulated index m. -/
def buildFileIndexFrom (i : Nat) (m : FileIndex) : List GrfModel → FileIndex
  | [] => m
  | g :: rest => buildFileIndexFrom (i + 1) (g.listFiles.foldl (indexOneFile i) m) rest

/-- Client.buildFileIndex with no loaded path mapping (path-mapping.json
absent, so the merge step after the archive loop adds nothing). -/
def buildFileIndex (grfs : List GrfModel) : FileIndex := buildFileIndexFrom 0 [] grfs

/-- The index lookup pair performed by Client.getFile: probe the lowercased
forward-slash form, then the lowercased backslash form. -/
def idxResolve (grfs : List GrfModel) (filePath : JSString) : Option IndexEntry :=
  let normalizedPath := backslashToSlash (jsToLowerCase filePath)
  let normalizedBackslash := slashToBackslash (jsToLowerCase filePath)
  match idxGet (buildFileIndex grfs) normalizedPath with
  | some e => some e
  | none => idxGet (buildFileIndex grfs) normalizedBackslash

/-- Inner loop of the fallback search: try each candidate path on one
archive. -/
def tryPathsOn (g : GrfModel) : List JSString → Option (List Nat)
  | [] => none
  | p :: rest =>
      match g.getFile p with
      | some c => some c
      | none => tryPathsOn g rest

/-- The fallback sequential search of Client.getFile: with no path mapping
loaded, every archive is tried on the backslashed request path. -/
def seqSearch (pathsToTry : List JSString) : List GrfModel → Option (List Nat)
  | [] => none
  | g :: rest =>
      match tryPathsOn g pathsToTry with
      | some c => some c
      | none => seqSearch pathsToTry rest

/-- Client.getFile with the local extracted mirror absent, auto-extraction
disabled and no path mapping loaded; the unified index is the one built at
init from the same archives. Returns the served bytes and the updated
content cache, under the construction defaults of 100 entries and 256 MB.
The missing-file log is a separate state, modelled by logMissingFile. -/
def clientGetFile (grfs : List GrfModel) (fileCache : LRUCache)
    (filePath : JSString) : Option (List Nat) × LRUCache :=
  let cacheKey := jsToLowerCase filePath
  match LRUCache.get fileCache cacheKey with
  | (some cached, c1) => (some cached, c1)
  | (none, c1) =>
      let grfFilePath := slashToBackslash filePath
      let fromIndex :=
        match idxResolve grfs filePath with
        | some entry =>
            match grfs.get? entry.grfIndex with
            | some grf => grf.getFile entry.originalPath
            | none => none
        | none => none
      match fromIndex with
      | some content => (some content, LRUCache.set 100 256 c1 cacheKey content)
      | none =>
          match seqSearch [grfFilePath] grfs with
          | some content => (some content, LRUCache.set 100 256 c1 cacheKey content)
          | none => (none, c1)

/- ========== clientController.js: missing-file log ========== -/

/-- One missing-file record, the object literal built by Client.logMissingFile
(the JSON serialization of queued log lines is abstracted to the record). -/
structure MissingRecord where
  timestamp : Int
  requestedPath : JSString
  grfPath : JSString
  mappedPath : Option JSString
deriving DecidableEq

/-- The mutable state around Client.logMissingFile: the dedup set, the
bounded in-memory list, the async write queue, and the notification cooldown
clock (lastNotificationTime starts at 0). -/
structure MissingState where
  missingFilesSet : List JSString
  missingFiles : List MissingRecord
  logQueue : List MissingRecord
  lastNotificationTime : Int
deriving DecidableEq

def MissingState.empty : MissingState := ⟨[], [], [], 0⟩

/-- Client.checkNotification at time now: outside the 60 s cooldown and with
at least 10 recorded misses, the cooldown clock is reset; the console alert
itself has no further state. -/
def checkNotification (st : MissingState) (now : Int) : MissingState :=
  if now - st.lastNotificationTime < 60000 then st
  else if st.missingFiles.length < 10 then st
  else { st with lastNotificationTime := now }

/-- Client.logMissingFile at time now: an already-seen requested path returns
immediately; otherwise the path joins the dedup set, the record is appended
to the in-memory list (shifted above 1000 entries) and to the write queue,
and the notification check runs. -/
def logMissingFile (st : MissingState) (now : Int) (requestedPath grfPath : JSString)
    (mappedPath : Option JSString) : MissingState :=
  if requestedPath ∈ st.missingFilesSet then st
  else
    let logEntry : MissingRecord := ⟨now, requestedPath, grfPath, mappedPath⟩
    let ring := st.missingFiles ++ [logEntry]
    let ringBounded := if 1000 < ring.length then ring.drop 1 else ring
    checkNotification
      { st with
          missingFilesSet := requestedPath :: st.missingFilesSet,
          missingFiles := ringBounded,
          logQueue := st.logQueue ++ [logEntry] } now

/-- One observed lookup failure, for stating properties of call sequences. -/
structure MissCall where
  now : Int
  requestedPath : JSString
  grfPath : JSString
  mappedPath : Option JSString
deriving DecidableEq

/-- Replays a sequence of lookup failures through logMissingFile. -/
def missRun (st : MissingState) : List MissCall → MissingState
  | [] => st
  | c :: rest =>
      missRun (logMissingFile st c.now c.requestedPath c.grfPath c.mappedPath) rest

/- ========== deep validator (validate-all-grfs): report and exit code ======= -/

/-- The per-archive outcome of validateGrf that main inspects: whether the
load succeeded, and the validation counters. -/
structure GrfValidation where
  success : Bool
  totalFiles : Nat
  badUfffd : Nat
  badC1Control : Nat
  roundTripFailRaw : Nat
  roundTripRepairable : Nat
  roundTripFailFinal : Nat
  readTestsPassed : Nat
  readTestsFailed : Nat
deriving DecidableEq

/-- The summary counters accumulated by main. -/
structure ReportSummary where
  successfulLoads : Nat
  failedLoads : Nat
  totalFiles : Nat
  totalBadUfffd : Nat
  totalBadC1Control : Nat
  totalRoundTripFailRaw : Nat
  totalRoundTripRepairable : Nat
  totalRoundTripFailFinal : Nat
  totalReadTestsPassed : Nat
  totalReadTestsFailed : Nat
deriving DecidableEq

def ReportSummary.empty : ReportSummary := ⟨0, 0, 0, 0, 0, 0, 0, 0, 0, 0⟩

/-- The per-archive accumulation in the main loop: the counters are added
only after a successful load; a failed load only bumps failedLoads. -/
def accumulateResult (s : ReportSummary) (r : GrfValidation) : ReportSummary :=
  if r.success then
    { s with
        successfulLoads := s.successfulLoads + 1,
        totalFiles := s.totalFiles + r.totalFiles,
        totalBadUfffd := s.totalBadUfffd + r.badUfffd,
        totalBadC1Control := s.totalBadC1Control + r.badC1Control,
        totalRoundTripFailRaw := s.totalRoundTripFailRaw + r.roundTripFailRaw,
        totalRoundTripRepairable := s.totalRoundTripRepairable + r.roundTripRepairable,
        totalRoundTripFailFinal := s.totalRoundTripFailFinal + r.roundTripFailFinal,
        totalReadTestsPassed := s.totalReadTestsPassed + r.readTestsPassed,
        totalReadTestsFailed := s.totalReadTestsFailed + r.readTestsFailed }
  else { s with failedLoads := s.failedLoads + 1 }

/-- The report summary over all validated archives. -/
def summarizeReport (rs : List GrfValidation) : ReportSummary :=
  rs.foldl accumulateResult ReportSummary.empty

/-- The process exit code chosen at the end of main: 2 when a load failed,
else 1 when a final round-trip failure or a read-test failure was counted,
else 0. -/
def mainExitCode (rs : List GrfValidation) : Nat :=
  let s := summarizeReport rs
  if 0 < s.failedLoads then 2
  else if 0 < s.totalRoundTripFailFinal ∨ 0 < s.totalReadTestsFailed then 1
  else 0

/- ========== startupValidator.js: GRF header, file table, layout choice ===== -/

/-- fs.readSync of size bytes at a position: the bytes actually available, at
most size of them (a short read yields the shorter subarray). -/
def safeRead (file : List Nat) (size position : Nat) : List Nat :=
  (file.drop position).take size

/-- Buffer.readUInt32LE. -/
def readUInt32LE (b : List Nat) (p : Nat) : Nat :=
  b.getD p 0 + 256 * b.getD (p + 1) 0 + 65536 * b.getD (p + 2) 0 +
    16777216 * b.getD (p + 3) 0

/-- Buffer.readBigUInt64LE, as a natural number. -/
def readUInt64LE (b : List Nat) (p : Nat) : Nat :=
  readUInt32LE b p + 4294967296 * readUInt32LE b (p + 4)

/-- Buffer slice up to the first NUL, decoded with Node encoding ascii,
which keeps the low seven bits of every byte. -/
def trimNullTerminatedAscii (buf : List Nat) : List Nat :=
  (buf.takeWhile (fun c => c != 0)).map (fun c => c % 128)

/-- The expected signature string. -/
def masterOfMagic : List Nat := jsStr "Master of Magic"

/-- Result of _readGrfHeader46. -/
inductive HeaderParse where
  | headerTooSmall
  | invalidSignature (signature : List Nat)
  | ok (tableOffset seed nFiles fileCount version : Nat)
deriving DecidableEq

/-- _readGrfHeader46: read 46 bytes at offset 0, reject a short header,
compare the NUL-trimmed 16-byte signature, then read tableOffset, seed,
nFiles and version, with fileCount = max(nFiles - seed - 7, 0), which is
the truncated natural subtraction. -/
def readGrfHeader46 (file : List Nat) : HeaderParse :=
  let header := safeRead file 46 0
  if header.length < 46 then .headerTooSmall
  else
    let signature := trimNullTerminatedAscii (header.take 16)
    if signature ≠ masterOfMagic then .invalidSignature signature
    else
      let tableOffset := readUInt32LE header 30
      let seed := readUInt32LE header 34
      let nFiles := readUInt32LE header 38
      let version := readUInt32LE header 42
      .ok tableOffset seed nFiles (nFiles - seed - 7) version

/-- The distinct failure identities of _inflateFileTable. -/
inductive TableFailure where
  | headerTooSmall
  | invalidSizes
  | tooLarge (uncompressedSize : Nat)
  | readFailed
  | zlibFailed
deriving DecidableEq

/-- Result of _inflateFileTable. -/
inductive TableResult where
  | err (reason : TableFailure)
  | ok (compressedSize uncompressedSize : Nat) (data : List Nat)
deriving DecidableEq

/-- _inflateFileTable, with zlib.inflateSync as the parameter inflate (an
external library call that either yields a buffer or throws): read the
8-byte table header, reject zero sizes, reject an uncompressed size above
512 MiB, read the compressed bytes, reject a short read, then inflate. -/
def inflateFileTable (inflate : List Nat → Option (List Nat)) (file : List Nat)
    (fileTablePos : Nat) : TableResult :=
  let tableHeader := safeRead file 8 fileTablePos
  if tableHeader.length < 8 then .err .headerTooSmall
  else
    let compressedSize := readUInt32LE tableHeader 0
    let uncompressedSize := readUInt32LE tableHeader 4
    if compressedSize = 0 ∨ uncompressedSize = 0 then .err .invalidSizes
    else if 536870912 < uncompressedSize then .err (.tooLarge uncompressedSize)
    else
      let compressed := safeRead file compressedSize (fileTablePos + 8)
      if compressed.length ≠ compressedSize then .err .readFailed
      else
        match inflate compressed with
        | some data => .ok compressedSize uncompressedSize data
        | none => .err .zlibFailed

/-- Counters produced by one pass of _scanFileTableNames. -/
structure ScanResult where
  inspected : Nat
  invalidUtf8Count : Nat
  invalidUtf8Samples : List (List Nat)
  parseErrors : Nat
  offsetOutOfRange : Nat
deriving DecidableEq

def ScanResult.empty : ScanResult := ⟨0, 0, [], 0, 0⟩

/-- Node latin1 decoding: every byte becomes the code unit of the same
value. -/
def decodeLatin1 (bytes : List Nat) : List Nat := bytes

/-- Position of the first NUL byte at or after p (the buffer length when
there is none): the inner while loop of the name scan. -/
def findNulEnd (buf : List Nat) (p : Nat) : Nat :=
  p + ((buf.drop p).takeWhile (fun c => c != 0)).length

/-- The entry loop of _scanFileTableNames, with the strict UTF-8 test of the
TextDecoder as the parameter isUtf8. The loop breaks with a parse error when
the name or the metadata would run past the buffer; entries whose flags bit 0
is clear are skipped; an inspected entry counts an out-of-range offset when
the offset falls outside the archive or offset plus compAligned runs past it
(the source also compares the offset against zero, which an unsigned read
never satisfies); a 64-bit offset is clamped to Number.MAX_SAFE_INTEGER. -/
def scanLoop (tableBuf : List Nat) (fileSize metaLen offsetSize : Nat)
    (isUtf8 : List Nat → Bool) : Nat → Nat → ScanResult → ScanResult
  | 0, _, acc => acc
  | i + 1, p, acc =>
    if tableBuf.length ≤ p then { acc with parseErrors := acc.parseErrors + 1 }
    else
      let e := findNulEnd tableBuf p
      if tableBuf.length ≤ e then { acc with parseErrors := acc.parseErrors + 1 }
      else
        let nameBytes := (tableBuf.take e).drop p
        let p1 := e + 1
        if tableBuf.length < p1 + metaLen then
          { acc with parseErrors := acc.parseErrors + 1 }
        else
          let compAligned := readUInt32LE tableBuf (p1 + 4)
          let flags := tableBuf.getD (p1 + 12) 0
          let offsetVal :=
            if offsetSize = 4 then readUInt32LE tableBuf (p1 + 13)
            else
              let o := readUInt64LE tableBuf (p1 + 13)
              if o ≤ 9007199254740991 then o else 9007199254740991
          let p2 := p1 + metaLen
          if flags % 2 = 0 then scanLoop tableBuf fileSize metaLen offsetSize isUtf8 i p2 acc
          else
            let acc1 := { acc with inspected := acc.inspected + 1 }
            let acc2 :=
              if 0 < fileSize then
                if fileSize ≤ offsetVal then
                  { acc1 with offsetOutOfRange := acc1.offsetOutOfRange + 1 }
                else if fileSize < offsetVal + compAligned then
                  { acc1 with offsetOutOfRange := acc1.offsetOutOfRange + 1 }
                else acc1
              else acc1
            let acc3 :=
              if isUtf8 nameBytes then acc2
              else
                { acc2 with
                    invalidUtf8Count := acc2.invalidUtf8Count + 1,
                    invalidUtf8Samples :=
                      if acc2.invalidUtf8Samples.length < 5 then
                        acc2.invalidUtf8Samples ++ [decodeLatin1 nameBytes]
                      else acc2.invalidUtf8Samples }
            scanLoop tableBuf fileSize metaLen offsetSize isUtf8 i p2 acc3

/-- _scanFileTableNames: metaLen is 13 plus the offset width, and the entry
count is capped by a positive scan limit. -/
def scanFileTableNames (tableBuf : List Nat) (fileCount offsetSize fileSize scanLimit : Nat)
    (isUtf8 : List Nat → Bool) : ScanResult :=
  let metaLen := 4 + 4 + 4 + 1 + offsetSize
  let maxI := if 0 < scanLimit then min fileCount scanLimit else fileCount
  scanLoop tableBuf fileSize metaLen offsetSize isUtf8 maxI 0 ScanResult.empty

/-- The two candidate entry layouts for a version 0x300 table. -/
inductive GrfLayout where
  | offset32
  | offset64
deriving DecidableEq

/-- The sort comparator applied to the candidate scans: more inspected
entries first, then fewer parse errors, then fewer out-of-range offsets. -/
def scanCompare (a b : ScanResult) : Int :=
  if b.inspected ≠ a.inspected then (b.inspected : Int) - (a.inspected : Int)
  else if a.parseErrors ≠ b.parseErrors then (a.parseErrors : Int) - (b.parseErrors : Int)
  else (a.offsetOutOfRange : Int) - (b.offsetOutOfRange : Int)

/-- The layout choice of _analyzeGrfPathEncoding: the offset32 scan always
runs; for version 0x300 (768) the offset64 scan also runs, the two-element
scans array is sorted stably under scanCompare, and the first element wins.
For two elements a stable sort swaps them exactly when the comparator is
positive on the original order. -/
def pickBestScan (version : Nat) (tableData : List Nat)
    (fileCount fileSize scanLimit : Nat) (isUtf8 : List Nat → Bool) :
    GrfLayout × ScanResult :=
  let s32 := scanFileTableNames tableData fileCount 4 fileSize scanLimit isUtf8
  if version = 768 then
    let s64 := scanFileTableNames tableData fileCount 8 fileSize scanLimit isUtf8
    if 0 < scanCompare s32 s64 then (.offset64, s64) else (.offset32, s32)
  else (.offset32, s32)

/- ========== validate-all-grfs: C1-prefix repair heuristic ========== -/

/-- hasC1Controls: some code unit lies in the C1 range 0x80 to 0x9F. -/
def hasC1Controls (s : JSString) : Bool :=
  s.any (fun c => decide (128 ≤ c) && decide (c ≤ 159))

/-- countC1Controls: how many code units lie in the C1 range. -/
def countC1Controls (s : JSString) : Nat :=
  s.countP (fun c => decide (128 ≤ c) && decide (c ≤ 159))

/-- countReplacement: how many code units are U+FFFD. -/
def countReplacement (s : JSString) : Nat :=
  s.countP (fun c => c == 65533)

/-- fixC1PrefixInSegment, with the iconv decode under the validated encoding
as the parameter dec (an external library call): a segment without C1
controls is returned unchanged; otherwise the leading run of code units of
byte range is re-decoded and glued to the unchanged tail, and the candidate
is kept only when it strictly lowers the C1 count without raising the U+FFFD
count. -/
def fixC1PrefixInSegment (dec : List Nat → JSString) (seg : JSString) : JSString :=
  if ¬ hasC1Controls seg then seg
  else
    let bytes := seg.takeWhile (fun c => decide (c ≤ 255))
    if bytes.length = 0 then seg
    else
      let merged := dec bytes ++ seg.drop bytes.length
      if countC1Controls merged < countC1Controls seg ∧
          countReplacement merged ≤ countReplacement seg then merged
      else seg

/- ========== concrete scenario inputs ========== -/

/-- Scenario S1: one archive holding the single entry data backslash foo.txt
with content hello. -/
def scenarioS1Grfs : List GrfModel := [⟨[(jsStr "data\\foo.txt", jsStr "hello")]⟩]

/-- First S1 fetch, of data/foo.txt, from a fresh cache. -/
def s1Fetch1 : Option (List Nat) × LRUCache :=
  clientGetFile scenarioS1Grfs LRUCache.empty (jsStr "data/foo.txt")

/-- Second S1 fetch, of DATA backslash FOO.TXT, from the state after the
first fetch. -/
def s1Fetch2 : Option (List Nat) × LRUCache :=
  clientGetFile scenarioS1Grfs s1Fetch1.2 (jsStr "DATA\\FOO.TXT")

/-- An archive whose single entry name contains two adjacent backslashes. -/
def doubleSlashGrfs : List GrfModel := [⟨[(jsStr "a\\\\b.txt", jsStr "x")]⟩]

/-- The two index keys generated by one listed file name: k is a key of f
when k is the lowercased forward-slash form or the lowercased backslash form
of f. -/
def genKey (f k : JSString) : Prop :=
  k = backslashToSlash (jsToLowerCase f) ∨ k = slashToBackslash (jsToLowerCase f)

instance (f k : JSString) : Decidable (genKey f k) := by
  unfold genKey
  infer_instance

/-- A concrete stand-in inflater that always fails, for witnesses. -/
def inflateNone : List Nat → Option (List Nat) := fun _ => none

/-- A concrete stand-in inflater that always yields an empty buffer, for
witnesses. -/
def inflateEmpty : List Nat → Option (List Nat) := fun _ => some []

/- =====================  Theorems  ===================== -/

theorem cacheBytes_nil : cacheBytes [] = 0 := rfl

theorem cacheBytes_cons (e : JSString × CacheItem) (l : List (JSString × CacheItem)) :
    cacheBytes (e :: l) = e.2.size + cacheBytes l := by
  simp [cacheBytes]

theorem cacheBytes_append (a b : List (JSString × CacheItem)) :
    cacheBytes (a ++ b) = cacheBytes a + cacheBytes b := by
  simp [cacheBytes]

theorem findItem_none_ne {cache : List (JSString × CacheItem)} {k : JSString}
    (h : findItem cache k = none) : ∀ e ∈ cache, e.1 ≠ k := by
  induction cache with
  | nil => simp
  | cons e rest ih =>
      obtain ⟨k2, it⟩ := e
      simp only [findItem] at h
      by_cases hk : k2 = k
      · simp [if_pos hk] at h
      · intro e he
        rcases List.mem_cons.1 he with rfl | hm
        · simpa using hk
        · exact ih (by simpa [if_neg hk] using h) e hm

theorem eraseKey_sublist (cache : List (JSString × CacheItem)) (k : JSString) :
    (eraseKey cache k).Sublist cache := by
  induction cache with
  | nil => simp [eraseKey]
  | cons e rest ih =>
      obtain ⟨k2, it⟩ := e
      simp only [eraseKey]
      split
      · exact List.sublist_cons_self _ _
      · exact List.Sublist.cons₂ _ ih

theorem eraseKey_bytes {cache : List (JSString × CacheItem)} {k : JSString}
    {it : CacheItem} (h : findItem cache k = some it) :
    cacheBytes (eraseKey cache k) + it.size = cacheBytes cache := by
  induction cache with
  | nil => simp [findItem] at h
  | cons e rest ih =>
      obtain ⟨k2, it2⟩ := e
      by_cases hk : k2 = k
      · simp only [findItem, if_pos hk] at h
        obtain rfl : it2 = it := by injection h
        simp only [eraseKey, if_pos hk, cacheBytes, List.map_cons, List.sum_cons]
        omega
      · simp only [findItem, if_neg hk] at h
        simp only [eraseKey, if_neg hk, cacheBytes, List.map_cons, List.sum_cons]
        have := ih h
        simp only [cacheBytes] at this
        omega

theorem eraseKey_length {cache : List (JSString × CacheItem)} {k : JSString}
    {it : CacheItem} (h : findItem cache k = some it) :
    (eraseKey cache k).length + 1 = cache.length := by
  induction cache with
  | nil => simp [findItem] at h
  | cons e rest ih =>
      obtain ⟨k2, it2⟩ := e
      by_cases hk : k2 = k
      · simp [eraseKey, if_pos hk]
      · simp only [findItem, if_neg hk] at h
        simp only [eraseKey, if_neg hk, List.length_cons]
        have := ih h
        omega

theorem eraseKey_not_mem {cache : List (JSString × CacheItem)} {k : JSString}
    (hnd : (cache.map Prod.fst).Nodup) :
    ∀ e ∈ eraseKey cache k, e.1 ≠ k := by
  induction cache with
  | nil => simp [eraseKey]
  | cons e rest ih =>
      obtain ⟨k2, it2⟩ := e
      simp only [List.map_cons, List.nodup_cons] at hnd
      by_cases hk : k2 = k
      · subst hk
        simp only [eraseKey, if_pos rfl]
        intro e he hek
        exact hnd.1 (by
          rw [← hek]
          exact List.mem_map_of_mem Prod.fst he)
      · simp only [eraseKey, if_neg hk]
        intro e he
        rcases List.mem_cons.1 he with rfl | hm
        · simpa using hk
        · exact ih hnd.2 e hm

/-- Exit condition of the eviction loop: either everything has been evicted,
or both bounds leave room for the incoming size. -/
theorem evictLoop_exit (maxSize maxMemoryBytes size : Nat) :
    ∀ (cache : List (JSString × CacheItem)) (mem : Int),
      (evictLoop maxSize maxMemoryBytes size cache mem).1 = [] ∨
      ((evictLoop maxSize maxMemoryBytes size cache mem).1.length < maxSize ∧
       (evictLoop maxSize maxMemoryBytes size cache mem).2 + size ≤ maxMemoryBytes) := by
  intro cache
  induction cache with
  | nil => intro mem; left; rfl
  | cons e rest ih =>
      intro mem
      obtain ⟨k, it⟩ := e
      simp only [evictLoop]
      split
      · exact ih _
      · right
        dsimp only
        omega

theorem evictLoop_sublist (maxSize maxMemoryBytes size : Nat) :
    ∀ (cache : List (JSString × CacheItem)) (mem : Int),
      (evictLoop maxSize maxMemoryBytes size cache mem).1.Sublist cache := by
  intro cache
  induction cache with
  | nil => intro mem; simp [evictLoop]
  | cons e rest ih =>
      intro mem
      obtain ⟨k, it⟩ := e
      simp only [evictLoop]
      split
      · exact ((ih _).trans (List.sublist_cons_self _ _))
      · exact List.Sublist.refl _

theorem evictLoop_mem_eq (maxSize maxMemoryBytes size : Nat) :
    ∀ (cache : List (JSString × CacheItem)) (mem : Int),
      mem = (cacheBytes cache : Int) →
      (evictLoop maxSize maxMemoryBytes size cache mem).2 =
        (cacheBytes (evictLoop maxSize maxMemoryBytes size cache mem).1 : Int) := by
  intro cache
  induction cache with
  | nil => intro mem h; simpa [evictLoop] using h
  | cons e rest ih =>
      intro mem h
      obtain ⟨k, it⟩ := e
      simp only [evictLoop]
      split
      · refine ih _ ?_
        rw [cacheBytes_cons] at h
        dsimp only at h
        omega
      · dsimp only
        exact h

/-- The three public invariants of the claim plus bookkeeping, preserved by
LRUCache.set. -/
theorem lruSet_wf {maxSize maxMemoryMB : Nat} {c : LRUCache}
    (hpos : 1 ≤ maxSize) (hwf : LRUWF maxSize maxMemoryMB c)
    (key : JSString) (data : List Nat) :
    LRUWF maxSize maxMemoryMB (LRUCache.set maxSize maxMemoryMB c key data) := by
  unfold LRUCache.set
  by_cases hbig : maxMemoryBytesOf maxMemoryMB < 10 * data.length
  · simpa [hbig] using hwf
  · simp only [if_neg hbig]
    -- state after the removal of an existing binding
    set removed :=
      (match findItem c.cache key with
       | some old => (eraseKey c.cache key, c.currentMemory - (old.size : Int))
       | none => (c.cache, c.currentMemory)) with hremoved
    have hrem_sub : removed.1.Sublist c.cache := by
      rw [hremoved]
      cases h : findItem c.cache key with
      | none => simp
      | some old => simpa using eraseKey_sublist c.cache key
    have hrem_mem : removed.2 = (cacheBytes removed.1 : Int) := by
      rw [hremoved]
      cases h : findItem c.cache key with
      | none => simpa using hwf.mem_eq
      | some old =>
          dsimp only
          have hb := eraseKey_bytes h
          rw [hwf.mem_eq]
          omega
    have hrem_len : removed.1.length ≤ c.cache.length := hrem_sub.length_le
    have hrem_nodup : (removed.1.map Prod.fst).Nodup :=
      hwf.keys_nodup.sublist (hrem_sub.map Prod.fst)
    have hrem_nokey : ∀ e ∈ removed.1, e.1 ≠ key := by
      rw [hremoved]
      cases h : findItem c.cache key with
      | none => simpa using findItem_none_ne h
      | some old => simpa using eraseKey_not_mem hwf.keys_nodup
    set evicted := evictLoop maxSize (maxMemoryBytesOf maxMemoryMB) data.length
      removed.1 removed.2 with hevicted
    have hev_sub : evicted.1.Sublist removed.1 := evictLoop_sublist _ _ _ _ _
    have hev_mem : evicted.2 = (cacheBytes evicted.1 : Int) :=
      evictLoop_mem_eq _ _ _ _ _ hrem_mem
    have hev_exit := evictLoop_exit maxSize (maxMemoryBytesOf maxMemoryMB)
      data.length removed.1 removed.2
    rw [← hevicted] at hev_exit
    have hnew : cacheBytes [(key, (⟨data, data.length⟩ : CacheItem))] = data.length := by
      simp [cacheBytes]
    constructor
    · -- currentMemory bookkeeping
      dsimp only
      rw [cacheBytes_append, hnew, hev_mem]
      push_cast
      ring
    · -- entry count bound
      dsimp only
      rw [List.length_append]
      rcases hev_exit with h | h
      · rw [h]; simpa using hpos
      · simp only [List.length_cons, List.length_nil]
        omega
    · -- byte budget bound
      dsimp only
      rw [cacheBytes_append, hnew]
      rcases hev_exit with h | h
      · rw [h, cacheBytes_nil]
        omega
      · omega
    · -- per-item size facts
      dsimp only
      intro e he
      rcases List.mem_append.1 he with he | he
      · exact hwf.item_size e (hrem_sub.mem (hev_sub.mem he))
      · simp only [List.mem_cons, List.not_mem_nil, or_false] at he
        subst he
        refine ⟨rfl, ?_⟩
        show 10 * data.length ≤ _
        omega
    · -- keys stay duplicate-free
      dsimp only
      rw [List.map_append]
      simp only [List.map_cons, List.map_nil]
      refine List.Nodup.append (hrem_nodup.sublist (hev_sub.map Prod.fst))
        (by simp) ?_
      intro a ha hb
      simp only [List.mem_singleton] at hb
      subst hb
      obtain ⟨e, he, rfl⟩ := List.mem_map.1 ha
      exact hrem_nokey e (hev_sub.mem he) rfl

theorem findItem_mem {cache : List (JSString × CacheItem)} {k : JSString}
    {it : CacheItem} (h : findItem cache k = some it) : (k, it) ∈ cache := by
  induction cache with
  | nil => simp [findItem] at h
  | cons e rest ih =>
      obtain ⟨k2, it2⟩ := e
      simp only [findItem] at h
      by_cases hk : k2 = k
      · rw [if_pos hk] at h
        obtain rfl : it2 = it := by injection h
        subst hk
        exact List.mem_cons_self _ _
      · exact List.mem_cons_of_mem _ (ih (by simpa [if_neg hk] using h))

/-- LRUCache.get preserves well-formedness: a hit only moves the binding to
the most-recent end, a miss only bumps the miss counter. -/
theorem lruGet_wf {maxSize maxMemoryMB : Nat} {c : LRUCache}
    (hwf : LRUWF maxSize maxMemoryMB c) (key : JSString) :
    LRUWF maxSize maxMemoryMB (LRUCache.get c key).2 := by
  unfold LRUCache.get
  cases h : findItem c.cache key with
  | none => exact ⟨hwf.mem_eq, hwf.size_le, hwf.bytes_le, hwf.item_size, hwf.keys_nodup⟩
  | some item =>
      have hb := eraseKey_bytes h
      have hl := eraseKey_length h
      have hsub := eraseKey_sublist c.cache key
      have hnokey : ∀ e ∈ eraseKey c.cache key, e.1 ≠ key := eraseKey_not_mem hwf.keys_nodup
      constructor
      · dsimp only
        rw [cacheBytes_append, hwf.mem_eq]
        have : cacheBytes [(key, item)] = item.size := by simp [cacheBytes]
        rw [this]
        omega
      · dsimp only
        rw [List.length_append]
        simp only [List.length_cons, List.length_nil]
        have := hwf.size_le
        omega
      · dsimp only
        rw [cacheBytes_append]
        have : cacheBytes [(key, item)] = item.size := by simp [cacheBytes]
        rw [this]
        have := hwf.bytes_le
        omega
      · dsimp only
        intro e he
        rcases List.mem_append.1 he with he | he
        · exact hwf.item_size e (hsub.mem he)
        · simp only [List.mem_cons, List.not_mem_nil, or_false] at he
          subst he
          exact hwf.item_size (key, item) (findItem_mem h)
      · dsimp only
        rw [List.map_append]
        simp only [List.map_cons, List.map_nil]
        refine List.Nodup.append
          (hwf.keys_nodup.sublist (hsub.map Prod.fst)) (by simp) ?_
        intro a ha hb2
        simp only [List.mem_singleton] at hb2
        subst hb2
        obtain ⟨e, he, rfl⟩ := List.mem_map.1 ha
        exact hnokey e he rfl

theorem lruClear_wf {maxSize maxMemoryMB : Nat} {c : LRUCache} :
    LRUWF maxSize maxMemoryMB (LRUCache.clear c) := by
  constructor <;> simp [LRUCache.clear, cacheBytes]

theorem lruEmpty_wf {maxSize maxMemoryMB : Nat} :
    LRUWF maxSize maxMemoryMB LRUCache.empty := by
  constructor <;> simp [LRUCache.empty, cacheBytes]

theorem lruStep_wf {maxSize maxMemoryMB : Nat} {c : LRUCache}
    (hpos : 1 ≤ maxSize) (hwf : LRUWF maxSize maxMemoryMB c) (op : LRUOp) :
    LRUWF maxSize maxMemoryMB (lruStep maxSize maxMemoryMB c op) := by
  cases op with
  | get key => exact lruGet_wf hwf key
  | set key data => exact lruSet_wf hpos hwf key data
  | clear => exact lruClear_wf

theorem lruRun_wf {maxSize maxMemoryMB : Nat} (hpos : 1 ≤ maxSize) :
    ∀ (ops : List LRUOp) (c : LRUCache), LRUWF maxSize maxMemoryMB c →
      LRUWF maxSize maxMemoryMB (lruRun maxSize maxMemoryMB c ops) := by
  intro ops
  induction ops with
  | nil => intro c hwf; exact hwf
  | cons op rest ih =>
      intro c hwf
      exact ih _ (lruStep_wf hpos hwf op)

/-- C3. For every sequence of get, set and clear operations on an LRUCache
with a positive entry bound, after each operation the entry count is at most
maxSize, the total buffer bytes are at most maxMemoryBytes, no cached buffer
exceeds a tenth of the byte budget, and an oversize set leaves any cache
state unchanged. Since the operation sequence is arbitrary, the bounds hold
after every prefix, that is, after each operation. -/
theorem lru_double_bound_invariant (maxSize maxMemoryMB : Nat) (ops : List LRUOp)
    (hpos : 1 ≤ maxSize) :
    (lruRun maxSize maxMemoryMB LRUCache.empty ops).cache.length ≤ maxSize ∧
    cacheBytes (lruRun maxSize maxMemoryMB LRUCache.empty ops).cache ≤
      maxMemoryBytesOf maxMemoryMB ∧
    (∀ e ∈ (lruRun maxSize maxMemoryMB LRUCache.empty ops).cache,
        10 * e.2.data.length ≤ maxMemoryBytesOf maxMemoryMB) ∧
    (∀ (c : LRUCache) (key : JSString) (data : List Nat),
        maxMemoryBytesOf maxMemoryMB < 10 * data.length →
        LRUCache.set maxSize maxMemoryMB c key data = c) := by
  have hwf := @lruRun_wf maxSize maxMemoryMB hpos ops LRUCache.empty
    (@lruEmpty_wf maxSize maxMemoryMB)
  refine ⟨hwf.size_le, hwf.bytes_le, ?_, ?_⟩
  · intro e he
    have := hwf.item_size e he
    omega
  · intro c key data hbig
    unfold LRUCache.set
    rw [if_pos hbig]

/-- Witness for C3 at a concrete configuration and operation sequence. -/
theorem lru_double_bound_invariant_witness :
    1 ≤ 2 ∧
    ((lruRun 2 1 LRUCache.empty [.set (jsStr "k1") [7, 7, 7]]).cache.length ≤ 2 ∧
     cacheBytes (lruRun 2 1 LRUCache.empty [.set (jsStr "k1") [7, 7, 7]]).cache ≤
       maxMemoryBytesOf 1 ∧
     (∀ e ∈ (lruRun 2 1 LRUCache.empty [.set (jsStr "k1") [7, 7, 7]]).cache,
         10 * e.2.data.length ≤ maxMemoryBytesOf 1) ∧
     (∀ (c : LRUCache) (key : JSString) (data : List Nat),
         maxMemoryBytesOf 1 < 10 * data.length →
         LRUCache.set 2 1 c key data = c)) :=
  ⟨by decide, lru_double_bound_invariant 2 1 [.set (jsStr "k1") [7, 7, 7]] (by decide)⟩

/-- C9 counterexample. In scenario S1 the second fetch also misses the
content cache, because the cache key lowercase(path) preserves slash
direction: the first fetch cached under the forward-slash key and the second
probes the backslash key. The statistics after the two fetches are 2 misses
and 0 hits, refuting the claimed 1 miss and 1 hit. -/
theorem s1_cache_stats_counterexample :
    s1Fetch2.2.misses = 2 ∧ s1Fetch2.2.hits = 0 ∧
    ¬ (s1Fetch2.2.misses = 1 ∧ s1Fetch2.2.hits = 1) := by
  decide

/-- C9 amended. In scenario S1, fetching data/foo.txt yields the bytes of
hello, fetching DATA backslash FOO.TXT also yields hello, and after the two
fetches the cache statistics report 2 misses and 0 hits: the probe key is
lowercase(path) with the slash direction preserved, so the second fetch
probes a different key, misses, and is served through the unified index. -/
theorem s1_fetch_behavior :
    s1Fetch1.1 = some (jsStr "hello") ∧
    s1Fetch2.1 = some (jsStr "hello") ∧
    s1Fetch2.2.misses = 2 ∧ s1Fetch2.2.hits = 0 := by
  decide

/-- C1 counterexample. The raw entry name with two adjacent backslashes is
indexed under the key with two adjacent forward slashes, and the unified
index has no binding for the collapsed key a/b.txt that the claimed
normalization (collapse slash runs, lowercase, NFC) would produce: slash
runs are not collapsed. -/
theorem normalization_no_collapse_counterexample :
    idxGet (buildFileIndex doubleSlashGrfs) (jsStr "a/b.txt") = none ∧
    idxGet (buildFileIndex doubleSlashGrfs) (jsStr "a//b.txt") =
      some ⟨0, jsStr "a\\\\b.txt"⟩ := by
  decide

/-- C4 counterexample. With one successfully loaded archive counting 2 final
round-trip failures (and no read-test failures), main exits with code 1, not
the claimed 2; and with one successfully loaded archive counting repairable
names and U+FFFD names but no final failures and no read-test failures, main
exits with code 0, not the claimed 1. -/
theorem exit_code_counterexample :
    mainExitCode [⟨true, 100, 2, 5, 7, 5, 2, 98, 0⟩] = 1 ∧
    ¬ mainExitCode [⟨true, 100, 2, 5, 7, 5, 2, 98, 0⟩] = 2 ∧
    mainExitCode [⟨true, 100, 2, 5, 5, 5, 0, 100, 0⟩] = 0 ∧
    ¬ mainExitCode [⟨true, 100, 2, 5, 5, 5, 0, 100, 0⟩] = 1 := by
  decide

/-- C5 counterexample. A 46-byte header with the correct signature, version
0x200, and a nonzero byte inside the 14-byte encryption-key field at offsets
16 to 29 passes _readGrfHeader46: the key field is never examined, so the
archive is not rejected as encrypted during header validation. -/
theorem header_ignores_key_counterexample :
    readGrfHeader46
      (masterOfMagic ++ [0] ++ (1 :: List.replicate 13 0) ++
        List.replicate 12 0 ++ [0, 2, 0, 0]) =
      .ok 0 0 0 0 512 := by
  decide

theorem getD_take_lt {l : List Nat} {n p : Nat} (h : p < n) :
    (l.take n).getD p 0 = l.getD p 0 := by
  simp [List.getD_eq_getElem?_getD, List.getElem?_take_of_lt h]

theorem getD_append_ge {l1 l2 : List Nat} {p : Nat} (h : l1.length ≤ p) :
    (l1 ++ l2).getD p 0 = l2.getD (p - l1.length) 0 := by
  simp [List.getD_eq_getElem?_getD, List.getElem?_append_right h]

/-- Decomposition of the header parse over the field layout: the outcome is
a function of the 16 signature bytes and of the bytes from offset 30 on; the
14 bytes in between, the encryption-key field, do not occur. -/
theorem readGrfHeader46_decomp (pre key suf : List Nat)
    (hpre : pre.length = 16) (hk : key.length = 14) :
    readGrfHeader46 (pre ++ (key ++ suf)) =
      if suf.length < 16 then .headerTooSmall
      else
        if trimNullTerminatedAscii pre ≠ masterOfMagic then
          .invalidSignature (trimNullTerminatedAscii pre)
        else
          .ok (readUInt32LE suf 0) (readUInt32LE suf 4) (readUInt32LE suf 8)
            (readUInt32LE suf 8 - readUInt32LE suf 4 - 7) (readUInt32LE suf 12) := by
  unfold readGrfHeader46 safeRead
  simp only [List.drop_zero]
  by_cases hs : suf.length < 16
  · have hlen : ((pre ++ (key ++ suf)).take 46).length < 46 := by
      simp only [List.length_take, List.length_append, hpre, hk]
      omega
    rw [if_pos hlen, if_pos hs]
  · have hlen : ¬ ((pre ++ (key ++ suf)).take 46).length < 46 := by
      simp only [List.length_take, List.length_append, hpre, hk]
      omega
    rw [if_neg hlen, if_neg hs]
    have hsig : ((pre ++ (key ++ suf)).take 46).take 16 = pre := by
      rw [List.take_take]
      norm_num
      rw [List.take_append_of_le_length (by omega),
        List.take_of_length_le (by omega)]
    rw [hsig]
    by_cases hsg : trimNullTerminatedAscii pre ≠ masterOfMagic
    · rw [if_pos hsg, if_pos hsg]
    · rw [if_neg hsg, if_neg hsg]
      have hg : ∀ q, 30 ≤ q → q < 46 →
          ((pre ++ (key ++ suf)).take 46).getD q 0 = suf.getD (q - 30) 0 := by
        intro q hq1 hq2
        rw [getD_take_lt hq2, getD_append_ge (by omega), getD_append_ge (by omega)]
        congr 1
        omega
      have hread : ∀ p q, 30 ≤ p → p + 3 < 46 → q = p - 30 →
          readUInt32LE ((pre ++ (key ++ suf)).take 46) p = readUInt32LE suf q := by
        intro p q hp1 hp2 hq
        unfold readUInt32LE
        rw [hg p (by omega) (by omega), hg (p + 1) (by omega) (by omega),
          hg (p + 2) (by omega) (by omega), hg (p + 3) (by omega) (by omega)]
        have e1 : p - 30 = q := by omega
        have e2 : p + 1 - 30 = q + 1 := by omega
        have e3 : p + 2 - 30 = q + 2 := by omega
        have e4 : p + 3 - 30 = q + 3 := by omega
        rw [e1, e2, e3, e4]
      rw [hread 30 0 (by omega) (by omega) (by omega),
        hread 34 4 (by omega) (by omega) (by omega),
        hread 38 8 (by omega) (by omega) (by omega),
        hread 42 12 (by omega) (by omega) (by omega)]

/-- C5 amended. The 14-byte encryption-key field at offsets 16 to 29 is not
examined by _readGrfHeader46: replacing its bytes by any other 14 bytes
leaves the header validation outcome unchanged, so an archive is never
rejected as encrypted during header validation (header validation rejects
only a short header or a bad signature; the version is checked by the
caller). -/
theorem header_key_field_ignored (pre key1 key2 suf : List Nat)
    (hpre : pre.length = 16) (hk1 : key1.length = 14) (hk2 : key2.length = 14) :
    readGrfHeader46 (pre ++ (key1 ++ suf)) = readGrfHeader46 (pre ++ (key2 ++ suf)) := by
  rw [readGrfHeader46_decomp pre key1 suf hpre hk1,
    readGrfHeader46_decomp pre key2 suf hpre hk2]

/-- Witness for C5 at a concrete header: the all-ones key field and the
all-zero key field validate identically. -/
theorem header_key_field_ignored_witness :
    (masterOfMagic ++ [0]).length = 16 ∧
    (List.replicate 14 1 : List Nat).length = 14 ∧
    (List.replicate 14 0 : List Nat).length = 14 ∧
    readGrfHeader46 ((masterOfMagic ++ [0]) ++
        (List.replicate 14 1 ++ (List.replicate 12 0 ++ [0, 2, 0, 0]))) =
      readGrfHeader46 ((masterOfMagic ++ [0]) ++
        (List.replicate 14 0 ++ (List.replicate 12 0 ++ [0, 2, 0, 0]))) :=
  ⟨by decide, by decide, by decide,
    header_key_field_ignored (masterOfMagic ++ [0]) (List.replicate 14 1)
      (List.replicate 14 0) (List.replicate 12 0 ++ [0, 2, 0, 0])
      (by decide) (by decide) (by decide)⟩

theorem foldl_accumulate_failedLoads : ∀ (rs : List GrfValidation) (s : ReportSummary),
    (rs.foldl accumulateResult s).failedLoads =
      s.failedLoads + rs.countP (fun r => !r.success) := by
  intro rs
  induction rs with
  | nil => intro s; simp
  | cons r rest ih =>
      intro s
      simp only [List.foldl_cons, ih, List.countP_cons]
      unfold accumulateResult
      by_cases h : r.success <;> simp [h] <;> omega

theorem foldl_accumulate_final : ∀ (rs : List GrfValidation) (s : ReportSummary),
    (rs.foldl accumulateResult s).totalRoundTripFailFinal =
      s.totalRoundTripFailFinal +
        ((rs.filter (fun r => r.success)).map (fun r => r.roundTripFailFinal)).sum := by
  intro rs
  induction rs with
  | nil => intro s; simp
  | cons r rest ih =>
      intro s
      simp only [List.foldl_cons, ih, List.filter_cons]
      unfold accumulateResult
      by_cases h : r.success <;> simp [h] <;> omega

theorem foldl_accumulate_read : ∀ (rs : List GrfValidation) (s : ReportSummary),
    (rs.foldl accumulateResult s).totalReadTestsFailed =
      s.totalReadTestsFailed +
        ((rs.filter (fun r => r.success)).map (fun r => r.readTestsFailed)).sum := by
  intro rs
  induction rs with
  | nil => intro s; simp
  | cons r rest ih =>
      intro s
      simp only [List.foldl_cons, ih, List.filter_cons]
      unfold accumulateResult
      by_cases h : r.success <;> simp [h] <;> omega

theorem natSum_pos_iff : ∀ (l : List Nat), 0 < l.sum ↔ ∃ x ∈ l, 0 < x := by
  intro l
  induction l with
  | nil => simp
  | cons a rest ih =>
      rw [List.sum_cons]
      constructor
      · intro h
        by_cases ha : 0 < a
        · exact ⟨a, List.mem_cons_self a rest, ha⟩
        · obtain ⟨x, hx, hxp⟩ := ih.1 (by omega)
          exact ⟨x, List.mem_cons_of_mem a hx, hxp⟩
      · rintro ⟨x, hx, hxp⟩
        rcases List.mem_cons.1 hx with rfl | hx
        · omega
        · have := ih.2 ⟨x, hx, hxp⟩
          omega

/-- C4 amended. The deep validator exits with code 2 exactly when some
archive failed to load; with code 1 exactly when every archive loaded and
some archive counted a final round-trip failure or a failed read test; and
with code 0 exactly when every archive loaded and no archive counted final
round-trip failures or read-test failures. Repairable names and names
containing U+FFFD do not influence the exit code. -/
theorem exit_code_characterization (rs : List GrfValidation) :
    (mainExitCode rs = 2 ↔ ∃ r ∈ rs, r.success = false) ∧
    (mainExitCode rs = 1 ↔ (∀ r ∈ rs, r.success = true) ∧
      ∃ r ∈ rs, 0 < r.roundTripFailFinal ∨ 0 < r.readTestsFailed) ∧
    (mainExitCode rs = 0 ↔ (∀ r ∈ rs, r.success = true) ∧
      ∀ r ∈ rs, r.roundTripFailFinal = 0 ∧ r.readTestsFailed = 0) := by
  have hfail : (summarizeReport rs).failedLoads = rs.countP (fun r => !r.success) := by
    unfold summarizeReport
    rw [foldl_accumulate_failedLoads]
    simp [ReportSummary.empty]
  have hfinal : (summarizeReport rs).totalRoundTripFailFinal =
      ((rs.filter (fun r => r.success)).map (fun r => r.roundTripFailFinal)).sum := by
    unfold summarizeReport
    rw [foldl_accumulate_final]
    simp [ReportSummary.empty]
  have hread : (summarizeReport rs).totalReadTestsFailed =
      ((rs.filter (fun r => r.success)).map (fun r => r.readTestsFailed)).sum := by
    unfold summarizeReport
    rw [foldl_accumulate_read]
    simp [ReportSummary.empty]
  have hfail_iff : 0 < (summarizeReport rs).failedLoads ↔ ∃ r ∈ rs, r.success = false := by
    rw [hfail, List.countP_pos_iff]
    simp
  have hpos_iff : (∀ r ∈ rs, r.success = true) →
      ((0 < (summarizeReport rs).totalRoundTripFailFinal ∨
        0 < (summarizeReport rs).totalReadTestsFailed) ↔
        ∃ r ∈ rs, 0 < r.roundTripFailFinal ∨ 0 < r.readTestsFailed) := by
    intro hall
    have hfilter : rs.filter (fun r => r.success) = rs :=
      List.filter_eq_self.2 fun r hr => by simp [hall r hr]
    rw [hfinal, hread, hfilter]
    rw [natSum_pos_iff, natSum_pos_iff]
    constructor
    · intro h
      rcases h with ⟨x, hx, hxp⟩ | ⟨x, hx, hxp⟩
      · obtain ⟨r, hr, rfl⟩ := List.mem_map.1 hx
        exact ⟨r, hr, Or.inl hxp⟩
      · obtain ⟨r, hr, rfl⟩ := List.mem_map.1 hx
        exact ⟨r, hr, Or.inr hxp⟩
    · rintro ⟨r, hr, h | h⟩
      · exact Or.inl ⟨r.roundTripFailFinal, List.mem_map_of_mem _ hr, h⟩
      · exact Or.inr ⟨r.readTestsFailed, List.mem_map_of_mem _ hr, h⟩
  unfold mainExitCode
  by_cases h2 : 0 < (summarizeReport rs).failedLoads
  · obtain ⟨r0, hr0, hr0f⟩ := hfail_iff.1 h2
    simp only [if_pos h2]
    refine ⟨⟨fun _ => ⟨r0, hr0, hr0f⟩, fun _ => by trivial⟩, ?_, ?_⟩
    · constructor
      · intro h; omega
      · rintro ⟨hall, -⟩
        rw [hall r0 hr0] at hr0f
        cases hr0f
    · constructor
      · intro h; omega
      · rintro ⟨hall, -⟩
        rw [hall r0 hr0] at hr0f
        cases hr0f
  · have hall : ∀ r ∈ rs, r.success = true := by
      intro r hr
      by_contra hne
      exact h2 (hfail_iff.2 ⟨r, hr, by simpa using hne⟩)
    simp only [if_neg h2]
    have hiff := hpos_iff hall
    by_cases h1 : 0 < (summarizeReport rs).totalRoundTripFailFinal ∨
        0 < (summarizeReport rs).totalReadTestsFailed
    · simp only [if_pos h1]
      refine ⟨?_, ?_, ?_⟩
      · constructor
        · intro h; omega
        · rintro ⟨r, hr, hf⟩
          rw [hall r hr] at hf
          cases hf
      · simp only [true_iff, iff_true]
        exact ⟨hall, hiff.1 h1⟩
      · constructor
        · intro h; omega
        · rintro ⟨-, hzero⟩
          obtain ⟨r, hr, hp⟩ := hiff.1 h1
          obtain ⟨hz1, hz2⟩ := hzero r hr
          omega
    · simp only [if_neg h1]
      refine ⟨?_, ?_, ?_⟩
      · constructor
        · intro h; omega
        · rintro ⟨r, hr, hf⟩
          rw [hall r hr] at hf
          cases hf
      · constructor
        · intro h; omega
        · rintro ⟨-, hex⟩
          exact absurd (hiff.2 hex) h1
      · simp only [true_iff, iff_true]
        refine ⟨hall, ?_⟩
        intro r hr
        by_contra hc
        push_neg at hc
        refine h1 (hiff.2 ⟨r, hr, ?_⟩)
        by_cases hz : r.roundTripFailFinal = 0
        · exact Or.inr (by omega)
        · exact Or.inl (by omega)

/-- C7. The file-table guardrails: a declared uncompressed size above 512 MiB
is rejected without the inflater being consulted (the outcome is the same for
any two inflaters), and with a nonzero compressed size the error is
specifically the size-ceiling one carrying the oversized value; a declared
uncompressed size of exactly 512 MiB never produces a size-ceiling error; a
declared compressed or uncompressed size of zero is rejected with the
invalid-sizes error (this zero check runs before the ceiling check). -/
theorem table_inflate_guardrail (inflate inflate2 : List Nat → Option (List Nat)) :
    (∀ (file : List Nat) (pos : Nat),
      8 ≤ (safeRead file 8 pos).length →
      536870912 < readUInt32LE (safeRead file 8 pos) 4 →
      inflateFileTable inflate file pos = inflateFileTable inflate2 file pos ∧
      (readUInt32LE (safeRead file 8 pos) 0 ≠ 0 →
        inflateFileTable inflate file pos =
          .err (.tooLarge (readUInt32LE (safeRead file 8 pos) 4)))) ∧
    (∀ (file : List Nat) (pos : Nat),
      readUInt32LE (safeRead file 8 pos) 4 = 536870912 →
      ∀ n, inflateFileTable inflate file pos ≠ .err (.tooLarge n)) ∧
    (∀ (file : List Nat) (pos : Nat),
      8 ≤ (safeRead file 8 pos).length →
      (readUInt32LE (safeRead file 8 pos) 0 = 0 ∨
        readUInt32LE (safeRead file 8 pos) 4 = 0) →
      inflateFileTable inflate file pos = .err .invalidSizes) := by
  refine ⟨?_, ?_, ?_⟩
  · intro file pos hlen hbig
    simp only [inflateFileTable]
    simp only [if_neg (show ¬ (safeRead file 8 pos).length < 8 by omega)]
    by_cases hz : readUInt32LE (safeRead file 8 pos) 0 = 0 ∨
        readUInt32LE (safeRead file 8 pos) 4 = 0
    · simp only [if_pos hz]
      refine ⟨trivial, fun hcs => ?_⟩
      rcases hz with hz | hz
      · exact absurd hz hcs
      · omega
    · simp only [if_neg hz, if_pos hbig]
      exact ⟨trivial, fun _ => trivial⟩
  · intro file pos heq n
    simp only [inflateFileTable]
    by_cases hlen : (safeRead file 8 pos).length < 8
    · rw [if_pos hlen]
      simp
    · rw [if_neg hlen]
      by_cases hz : readUInt32LE (safeRead file 8 pos) 0 = 0 ∨
          readUInt32LE (safeRead file 8 pos) 4 = 0
      · rw [if_pos hz]
        simp
      · rw [if_neg hz, if_neg (by omega)]
        by_cases hr : (safeRead file (readUInt32LE (safeRead file 8 pos) 0)
            (pos + 8)).length ≠ readUInt32LE (safeRead file 8 pos) 0
        · rw [if_pos hr]
          simp
        · rw [if_neg hr]
          cases inflate (safeRead file (readUInt32LE (safeRead file 8 pos) 0) (pos + 8)) <;>
            simp
  · intro file pos hlen hz
    simp only [inflateFileTable]
    rw [if_neg (by omega), if_pos hz]

/-- Witness for C7 at concrete table headers: an oversize declaration
(536870913 bytes), an exactly-512 MiB declaration, and a zero compressed
size, each at position 0, with two concrete inflaters. -/
theorem table_inflate_guardrail_witness :
    (8 ≤ (safeRead [1, 0, 0, 0, 1, 0, 0, 32] 8 0).length ∧
     536870912 < readUInt32LE (safeRead [1, 0, 0, 0, 1, 0, 0, 32] 8 0) 4 ∧
     readUInt32LE (safeRead [1, 0, 0, 0, 1, 0, 0, 32] 8 0) 0 ≠ 0) ∧
    inflateFileTable inflateNone [1, 0, 0, 0, 1, 0, 0, 32] 0 =
      inflateFileTable inflateEmpty [1, 0, 0, 0, 1, 0, 0, 32] 0 ∧
    inflateFileTable inflateNone [1, 0, 0, 0, 1, 0, 0, 32] 0 =
      .err (.tooLarge 536870913) ∧
    inflateFileTable inflateNone [1, 0, 0, 0, 0, 0, 0, 32] 0 ≠
      .err (.tooLarge 536870912) ∧
    inflateFileTable inflateNone [0, 0, 0, 0, 1, 0, 0, 32] 0 = .err .invalidSizes := by
  refine ⟨⟨by decide, by decide, by decide⟩, ?_, ?_, ?_, ?_⟩
  · exact ((table_inflate_guardrail inflateNone inflateEmpty).1
      [1, 0, 0, 0, 1, 0, 0, 32] 0 (by decide) (by decide)).1
  · exact ((table_inflate_guardrail inflateNone inflateEmpty).1
      [1, 0, 0, 0, 1, 0, 0, 32] 0 (by decide) (by decide)).2 (by decide)
  · exact (table_inflate_guardrail inflateNone inflateEmpty).2.1
      [1, 0, 0, 0, 0, 0, 0, 32] 0 (by decide) 536870912
  · exact (table_inflate_guardrail inflateNone inflateEmpty).2.2
      [0, 0, 0, 0, 1, 0, 0, 32] 0 (by decide) (Or.inl (by decide))

theorem countC1_append (a b : JSString) :
    countC1Controls (a ++ b) = countC1Controls a + countC1Controls b := by
  simp [countC1Controls, List.countP_append]

theorem hasC1_false_count_zero {s : JSString} (h : hasC1Controls s = false) :
    countC1Controls s = 0 := by
  unfold hasC1Controls at h
  unfold countC1Controls
  rw [List.countP_eq_zero]
  intro c hc
  exact (List.any_eq_false.1 h) c hc

/-- C8. fixC1PrefixInSegment returns the candidate obtained by re-decoding
the leading run of byte-range code units and keeping the tail, exactly when
the candidate strictly lowers the C1-control count without raising the
U+FFFD count, and otherwise returns the segment unchanged; the early returns
of the source (no C1 controls present, or an empty leading run) coincide
with this acceptance test, because a segment without C1 controls cannot have
its count strictly lowered and an empty run leaves the whole segment as a
suffix of the candidate. Stated for every decoder dec, which stands for the
external iconv decode under the validated encoding (CP949 for the cp949,
euc-kr and auto families). -/
theorem fixC1_characterization (dec : List Nat → JSString) (seg : JSString) :
    fixC1PrefixInSegment dec seg =
      if countC1Controls (dec (seg.takeWhile (fun c => decide (c ≤ 255))) ++
            seg.drop (seg.takeWhile (fun c => decide (c ≤ 255))).length) <
          countC1Controls seg ∧
         countReplacement (dec (seg.takeWhile (fun c => decide (c ≤ 255))) ++
            seg.drop (seg.takeWhile (fun c => decide (c ≤ 255))).length) ≤
          countReplacement seg
      then dec (seg.takeWhile (fun c => decide (c ≤ 255))) ++
            seg.drop (seg.takeWhile (fun c => decide (c ≤ 255))).length
      else seg := by
  unfold fixC1PrefixInSegment
  by_cases h1 : hasC1Controls seg
  · rw [if_neg (by simpa using h1)]
    by_cases h2 : (seg.takeWhile (fun c => decide (c ≤ 255))).length = 0
    · rw [if_pos h2]
      have hbnil : seg.takeWhile (fun c => decide (c ≤ 255)) = [] :=
        List.length_eq_zero.1 h2
      rw [if_neg]
      rintro ⟨hlt, -⟩
      rw [hbnil] at hlt
      simp only [List.length_nil, List.drop_zero] at hlt
      rw [countC1_append] at hlt
      omega
    · rw [if_neg h2]
  · rw [if_pos (by simpa using h1)]
    have hz : countC1Controls seg = 0 :=
      hasC1_false_count_zero (by simpa using h1)
    rw [if_neg]
    rintro ⟨hlt, -⟩
    omega

theorem scanCompare_pos_iff (a b : ScanResult) :
    0 < scanCompare a b ↔
      a.inspected < b.inspected ∨
      (b.inspected = a.inspected ∧ b.parseErrors < a.parseErrors) ∨
      (b.inspected = a.inspected ∧ b.parseErrors = a.parseErrors ∧
        b.offsetOutOfRange < a.offsetOutOfRange) := by
  unfold scanCompare
  split_ifs with h1 h2 <;> omega

/-- C6. For a version-0x300 archive the file table is scanned under both the
4-byte and the 8-byte offset layout, and the 8-byte layout is selected
exactly when it inspects more entries, or inspects equally many with fewer
parse errors, or inspects equally many with equally many parse errors and
fewer out-of-range offsets (an offset at or past the archive length, or
offset plus compAligned past the archive length); otherwise the 4-byte
layout is kept. In particular, with equal inspected counts and equal parse
errors, the layout with fewer out-of-range offsets is selected. -/
theorem layout_choice_characterization (tableData : List Nat)
    (fileCount fileSize scanLimit : Nat) (isUtf8 : List Nat → Bool) :
    (pickBestScan 768 tableData fileCount fileSize scanLimit isUtf8).1 = .offset64 ↔
      ((scanFileTableNames tableData fileCount 4 fileSize scanLimit isUtf8).inspected <
        (scanFileTableNames tableData fileCount 8 fileSize scanLimit isUtf8).inspected ∨
       ((scanFileTableNames tableData fileCount 8 fileSize scanLimit isUtf8).inspected =
          (scanFileTableNames tableData fileCount 4 fileSize scanLimit isUtf8).inspected ∧
        (scanFileTableNames tableData fileCount 8 fileSize scanLimit isUtf8).parseErrors <
          (scanFileTableNames tableData fileCount 4 fileSize scanLimit isUtf8).parseErrors) ∨
       ((scanFileTableNames tableData fileCount 8 fileSize scanLimit isUtf8).inspected =
          (scanFileTableNames tableData fileCount 4 fileSize scanLimit isUtf8).inspected ∧
        (scanFileTableNames tableData fileCount 8 fileSize scanLimit isUtf8).parseErrors =
          (scanFileTableNames tableData fileCount 4 fileSize scanLimit isUtf8).parseErrors ∧
        (scanFileTableNames tableData fileCount 8 fileSize scanLimit isUtf8).offsetOutOfRange <
          (scanFileTableNames tableData fileCount 4 fileSize scanLimit isUtf8).offsetOutOfRange)) := by
  rw [← scanCompare_pos_iff]
  simp only [pickBestScan, if_pos rfl]
  by_cases hc : 0 < scanCompare
      (scanFileTableNames tableData fileCount 4 fileSize scanLimit isUtf8)
      (scanFileTableNames tableData fileCount 8 fileSize scanLimit isUtf8)
  · rw [if_pos hc]
    exact ⟨fun _ => hc, fun _ => rfl⟩
  · rw [if_neg hc]
    constructor
    · intro h
      cases h
    · intro h
      exact absurd h hc

theorem checkNotification_set (st : MissingState) (now : Int) :
    (checkNotification st now).missingFilesSet = st.missingFilesSet := by
  unfold checkNotification
  split_ifs <;> rfl

theorem checkNotification_ring (st : MissingState) (now : Int) :
    (checkNotification st now).missingFiles = st.missingFiles := by
  unfold checkNotification
  split_ifs <;> rfl

theorem logMissingFile_dup {st : MissingState} {now : Int} {p g : JSString}
    {m : Option JSString} (h : p ∈ st.missingFilesSet) :
    logMissingFile st now p g m = st := by
  unfold logMissingFile
  rw [if_pos h]

theorem logMissingFile_set_mono {st : MissingState} (now : Int) (p g : JSString)
    (m : Option JSString) {q : JSString} (h : q ∈ st.missingFilesSet) :
    q ∈ (logMissingFile st now p g m).missingFilesSet := by
  unfold logMissingFile
  split
  · exact h
  · rw [checkNotification_set]
    exact List.mem_cons_of_mem _ h

theorem logMissingFile_mem_set (st : MissingState) (now : Int) (p g : JSString)
    (m : Option JSString) :
    p ∈ (logMissingFile st now p g m).missingFilesSet := by
  unfold logMissingFile
  split
  · assumption
  · rw [checkNotification_set]
    exact List.mem_cons_self _ _

theorem missRun_append (st : MissingState) (a b : List MissCall) :
    missRun st (a ++ b) = missRun (missRun st a) b := by
  induction a generalizing st with
  | nil => rfl
  | cons c rest ih =>
      simp only [List.cons_append, missRun]
      exact ih _

theorem missRun_set_mono (calls : List MissCall) (st : MissingState) {q : JSString}
    (h : q ∈ st.missingFilesSet) : q ∈ (missRun st calls).missingFilesSet := by
  induction calls generalizing st with
  | nil => exact h
  | cons c rest ih =>
      exact ih _ (logMissingFile_set_mono _ _ _ _ h)

theorem missRun_mem_set : ∀ (calls : List MissCall) (st : MissingState) (c0 : MissCall),
    c0 ∈ calls → c0.requestedPath ∈ (missRun st calls).missingFilesSet := by
  intro calls
  induction calls with
  | nil => intro st c0 h; simp at h
  | cons c rest ih =>
      intro st c0 h
      rcases List.mem_cons.1 h with h1 | h1
      · subst h1
        exact missRun_set_mono rest _ (logMissingFile_mem_set st _ _ _ _)
      · exact ih _ _ h1

/-- The inductive invariant of the missing-file ring: every recorded path is
in the dedup set, and recorded paths are pairwise distinct. -/
structure MissWF (st : MissingState) : Prop where
  ring_in_set : ∀ r ∈ st.missingFiles, r.requestedPath ∈ st.missingFilesSet
  ring_distinct : st.missingFiles.Pairwise (fun a b => a.requestedPath ≠ b.requestedPath)

theorem logMissingFile_wf {st : MissingState} (hwf : MissWF st) (now : Int)
    (p g : JSString) (m : Option JSString) : MissWF (logMissingFile st now p g m) := by
  unfold logMissingFile
  by_cases h : p ∈ st.missingFilesSet
  · rw [if_pos h]
    exact hwf
  · rw [if_neg h]
    have hsub : (if 1000 < (st.missingFiles ++ [(⟨now, p, g, m⟩ : MissingRecord)]).length
          then (st.missingFiles ++ [(⟨now, p, g, m⟩ : MissingRecord)]).drop 1
          else st.missingFiles ++ [(⟨now, p, g, m⟩ : MissingRecord)]).Sublist
        (st.missingFiles ++ [(⟨now, p, g, m⟩ : MissingRecord)]) := by
      split
      · exact List.drop_sublist _ _
      · exact List.Sublist.refl _
    constructor
    · intro r hr
      rw [checkNotification_ring] at hr
      rw [checkNotification_set]
      simp only at hr
      have hr2 := hsub.mem hr
      rcases List.mem_append.1 hr2 with hr2 | hr2
      · exact List.mem_cons_of_mem _ (hwf.ring_in_set r hr2)
      · simp only [List.mem_cons, List.not_mem_nil, or_false] at hr2
        subst hr2
        exact List.mem_cons_self _ _
    · rw [checkNotification_ring]
      simp only
      refine List.Pairwise.sublist hsub ?_
      rw [List.pairwise_append]
      refine ⟨hwf.ring_distinct, by simp, ?_⟩
      intro a ha b hb
      simp only [List.mem_cons, List.not_mem_nil, or_false] at hb
      subst hb
      intro hab
      apply h
      have hap : a.requestedPath = p := hab
      rw [← hap]
      exact hwf.ring_in_set a ha

theorem missRun_wf (calls : List MissCall) (st : MissingState) (hwf : MissWF st) :
    MissWF (missRun st calls) := by
  induction calls generalizing st with
  | nil => exact hwf
  | cons c rest ih => exact ih _ (logMissingFile_wf hwf c.now c.requestedPath c.grfPath c.mappedPath)

/-- C10. Missing-file recording is deduplicated by requested path: a failed
lookup whose requested path is already in the dedup set leaves the entire
state, so in particular the in-memory ring, the log queue, and the
notification state, unchanged; replaying a failure whose path already
occurred in the call sequence is a no-op on the final state; and after any
call sequence the recorded ring entries carry pairwise-distinct requested
paths. -/
theorem missing_log_dedup :
    (∀ (st : MissingState) (now : Int) (p g : JSString) (m : Option JSString),
        p ∈ st.missingFilesSet → logMissingFile st now p g m = st) ∧
    (∀ (calls : List MissCall) (c : MissCall),
        (∃ c0 ∈ calls, c0.requestedPath = c.requestedPath) →
        missRun MissingState.empty (calls ++ [c]) = missRun MissingState.empty calls) ∧
    (∀ calls : List MissCall,
        (missRun MissingState.empty calls).missingFiles.Pairwise
          (fun a b => a.requestedPath ≠ b.requestedPath)) := by
  refine ⟨fun st now p g m h => logMissingFile_dup h, ?_, ?_⟩
  · rintro calls c ⟨c0, hc0, hpath⟩
    rw [missRun_append]
    simp only [missRun]
    rw [logMissingFile_dup (hpath ▸ missRun_mem_set calls MissingState.empty c0 hc0)]
  · intro calls
    exact (missRun_wf calls MissingState.empty
      ⟨by simp [MissingState.empty], by simp [MissingState.empty]⟩).ring_distinct

/-- Witness for C10: two failures on the same path leave the state of the
first failure unchanged, and the ring stays duplicate-free. -/
theorem missing_log_dedup_witness :
    ((jsStr "a.txt") ∈ (missRun MissingState.empty
        [⟨5, jsStr "a.txt", jsStr "a.txt", none⟩]).missingFilesSet ∧
     logMissingFile (missRun MissingState.empty
        [⟨5, jsStr "a.txt", jsStr "a.txt", none⟩]) 9 (jsStr "a.txt") (jsStr "a.txt") none =
       missRun MissingState.empty [⟨5, jsStr "a.txt", jsStr "a.txt", none⟩]) ∧
    ((∃ c0 ∈ [(⟨5, jsStr "a.txt", jsStr "a.txt", none⟩ : MissCall)],
        c0.requestedPath = (⟨9, jsStr "a.txt", jsStr "a.txt", none⟩ : MissCall).requestedPath) ∧
     missRun MissingState.empty
        ([⟨5, jsStr "a.txt", jsStr "a.txt", none⟩] ++ [⟨9, jsStr "a.txt", jsStr "a.txt", none⟩]) =
       missRun MissingState.empty [⟨5, jsStr "a.txt", jsStr "a.txt", none⟩]) ∧
    (missRun MissingState.empty
        [⟨5, jsStr "a.txt", jsStr "a.txt", none⟩,
         ⟨9, jsStr "a.txt", jsStr "a.txt", none⟩]).missingFiles.Pairwise
      (fun a b => a.requestedPath ≠ b.requestedPath) :=
  ⟨⟨by decide,
    missing_log_dedup.1 _ 9 (jsStr "a.txt") (jsStr "a.txt") none (by decide)⟩,
   ⟨⟨⟨5, jsStr "a.txt", jsStr "a.txt", none⟩, by simp, rfl⟩,
    missing_log_dedup.2.1 [⟨5, jsStr "a.txt", jsStr "a.txt", none⟩]
      ⟨9, jsStr "a.txt", jsStr "a.txt", none⟩
      ⟨⟨5, jsStr "a.txt", jsStr "a.txt", none⟩, by simp, rfl⟩⟩,
   missing_log_dedup.2.2 [⟨5, jsStr "a.txt", jsStr "a.txt", none⟩,
     ⟨9, jsStr "a.txt", jsStr "a.txt", none⟩]⟩

theorem idxGet_append (m1 m2 : FileIndex) (k : JSString) :
    idxGet (m1 ++ m2) k =
      match idxGet m1 k with
      | some v => some v
      | none => idxGet m2 k := by
  induction m1 with
  | nil => simp [idxGet]
  | cons e rest ih =>
      obtain ⟨k2, v⟩ := e
      by_cases h : k2 = k
      · simp [idxGet, if_pos h]
      · simp only [List.cons_append, idxGet, if_neg h]
        exact ih

theorem idxGet_setIfAbsent_preserve {m : FileIndex} {k2 : JSString} {v2 : IndexEntry}
    (k : JSString) (v : IndexEntry) (h : idxGet m k2 = some v2) :
    idxGet (idxSetIfAbsent m k v) k2 = some v2 := by
  unfold idxSetIfAbsent
  split
  · exact h
  · rw [idxGet_append, h]

theorem idxHas_setIfAbsent_self (m : FileIndex) (k : JSString) (v : IndexEntry) :
    idxHas (idxSetIfAbsent m k v) k = true := by
  unfold idxSetIfAbsent
  split
  · assumption
  · unfold idxHas
    rw [idxGet_append]
    rename_i hnot
    have hn : idxGet m k = none := by
      unfold idxHas at hnot
      cases h : idxGet m k
      · rfl
      · rw [h] at hnot
        simp at hnot
    rw [hn]
    simp [idxGet]

theorem idxHas_setIfAbsent_mono {m : FileIndex} {k2 : JSString}
    (k : JSString) (v : IndexEntry) (h : idxHas m k2 = true) :
    idxHas (idxSetIfAbsent m k v) k2 = true := by
  unfold idxHas at h ⊢
  cases hg : idxGet m k2 with
  | none => rw [hg] at h; simp at h
  | some v2 => rw [idxGet_setIfAbsent_preserve k v hg]; rfl

theorem indexOneFile_preserve {m : FileIndex} {k : JSString} {v : IndexEntry}
    (i : Nat) (f : JSString) (h : idxGet m k = some v) :
    idxGet (indexOneFile i m f) k = some v := by
  unfold indexOneFile
  exact idxGet_setIfAbsent_preserve _ _ (idxGet_setIfAbsent_preserve _ _ h)

theorem indexOneFile_has_mono {m : FileIndex} {k : JSString}
    (i : Nat) (f : JSString) (h : idxHas m k = true) :
    idxHas (indexOneFile i m f) k = true := by
  unfold indexOneFile
  exact idxHas_setIfAbsent_mono _ _ (idxHas_setIfAbsent_mono _ _ h)

theorem indexOneFile_has_genKey {k : JSString} (i : Nat) (m : FileIndex) (f : JSString)
    (h : genKey f k) : idxHas (indexOneFile i m f) k = true := by
  unfold indexOneFile
  rcases h with h | h
  · subst h
    exact idxHas_setIfAbsent_mono _ _ (idxHas_setIfAbsent_self _ _ _)
  · subst h
    exact idxHas_setIfAbsent_self _ _ _

theorem foldl_indexOneFile_preserve {k : JSString} {v : IndexEntry} (i : Nat) :
    ∀ (files : List JSString) (m : FileIndex), idxGet m k = some v →
      idxGet (files.foldl (indexOneFile i) m) k = some v := by
  intro files
  induction files with
  | nil => intro m h; exact h
  | cons f rest ih =>
      intro m h
      exact ih _ (indexOneFile_preserve i f h)

theorem foldl_indexOneFile_has_mono {k : JSString} (i : Nat) :
    ∀ (files : List JSString) (m : FileIndex), idxHas m k = true →
      idxHas (files.foldl (indexOneFile i) m) k = true := by
  intro files
  induction files with
  | nil => intro m h; exact h
  | cons f rest ih =>
      intro m h
      exact ih _ (indexOneFile_has_mono i f h)

theorem foldl_indexOneFile_has {k : JSString} (i : Nat) :
    ∀ (files : List JSString) (m : FileIndex) (f : JSString), f ∈ files → genKey f k →
      idxHas (files.foldl (indexOneFile i) m) k = true := by
  intro files
  induction files with
  | nil => intro m f h; simp at h
  | cons f0 rest ih =>
      intro m f h hk
      rcases List.mem_cons.1 h with h1 | h1
      · subst h1
        exact foldl_indexOneFile_has_mono i rest _ (indexOneFile_has_genKey i m f hk)
      · exact ih _ f h1 hk

theorem buildFrom_preserve {k : JSString} {v : IndexEntry} :
    ∀ (gs : List GrfModel) (i : Nat) (m : FileIndex), idxGet m k = some v →
      idxGet (buildFileIndexFrom i m gs) k = some v := by
  intro gs
  induction gs with
  | nil => intro i m h; exact h
  | cons g rest ih =>
      intro i m h
      exact ih _ _ (foldl_indexOneFile_preserve i g.listFiles m h)

theorem buildFrom_has_mono {k : JSString} :
    ∀ (gs : List GrfModel) (i : Nat) (m : FileIndex), idxHas m k = true →
      idxHas (buildFileIndexFrom i m gs) k = true := by
  intro gs
  induction gs with
  | nil => intro i m h; exact h
  | cons g rest ih =>
      intro i m h
      exact ih _ _ (foldl_indexOneFile_has_mono i g.listFiles m h)

theorem buildFrom_has {k : JSString} :
    ∀ (gs : List GrfModel) (i : Nat) (m : FileIndex) (g : GrfModel) (f : JSString),
      g ∈ gs → f ∈ g.listFiles → genKey f k →
      idxHas (buildFileIndexFrom i m gs) k = true := by
  intro gs
  induction gs with
  | nil => intro i m g f h; simp at h
  | cons g0 rest ih =>
      intro i m g f hg hf hk
      rcases List.mem_cons.1 hg with h1 | h1
      · subst h1
        exact buildFrom_has_mono rest _ _ (foldl_indexOneFile_has i g.listFiles m f hf hk)
      · exact ih _ _ g f h1 hf hk

theorem idxGet_setIfAbsent_cases {m : FileIndex} {k k2 : JSString} {v v2 : IndexEntry}
    (h : idxGet (idxSetIfAbsent m k v) k2 = some v2) :
    idxGet m k2 = some v2 ∨ (k2 = k ∧ v2 = v ∧ idxGet m k2 = none) := by
  unfold idxSetIfAbsent at h
  split at h
  · exact Or.inl h
  · rw [idxGet_append] at h
    cases hg : idxGet m k2 with
    | some v3 =>
        rw [hg] at h
        exact Or.inl h
    | none =>
        rw [hg] at h
        simp only [idxGet] at h
        by_cases hk : k = k2
        · rw [if_pos hk] at h
          exact Or.inr ⟨hk.symm, by injection h with h2; exact h2.symm, rfl⟩
        · rw [if_neg hk] at h
          simp [idxGet] at h

theorem indexOneFile_cases {m : FileIndex} {k : JSString} {v : IndexEntry}
    {i : Nat} {f : JSString} (h : idxGet (indexOneFile i m f) k = some v) :
    idxGet m k = some v ∨ (idxGet m k = none ∧ v = ⟨i, f⟩ ∧ genKey f k) := by
  unfold indexOneFile at h
  rcases idxGet_setIfAbsent_cases h with h1 | ⟨hk, hv, hnone⟩
  · rcases idxGet_setIfAbsent_cases h1 with h2 | ⟨hk, hv, hnone⟩
    · exact Or.inl h2
    · exact Or.inr ⟨hnone, hv, Or.inl hk⟩
  · right
    refine ⟨?_, hv, Or.inr hk⟩
    cases hg : idxGet m k with
    | none => rfl
    | some v3 =>
        rw [idxGet_setIfAbsent_preserve _ _ hg] at hnone
        cases hnone

theorem foldl_indexOneFile_cases {k : JSString} {v : IndexEntry} {i : Nat} :
    ∀ (files : List JSString) (m : FileIndex),
      idxGet (files.foldl (indexOneFile i) m) k = some v →
      idxGet m k = some v ∨
        (idxGet m k = none ∧ v.grfIndex = i ∧ v.originalPath ∈ files ∧
          genKey v.originalPath k) := by
  intro files
  induction files with
  | nil => intro m h; exact Or.inl h
  | cons f rest ih =>
      intro m h
      rcases ih _ h with h1 | ⟨hnone, hidx, hmem, hk⟩
      · rcases indexOneFile_cases h1 with h2 | ⟨hnone, hv, hk⟩
        · exact Or.inl h2
        · subst hv
          exact Or.inr ⟨hnone, rfl, List.mem_cons_self _ _, hk⟩
      · right
        refine ⟨?_, hidx, List.mem_cons_of_mem _ hmem, hk⟩
        cases hg : idxGet m k with
        | none => rfl
        | some v3 =>
            rw [indexOneFile_preserve i f hg] at hnone
            cases hnone

theorem buildFrom_cases {k : JSString} {v : IndexEntry} :
    ∀ (gs : List GrfModel) (i : Nat) (m : FileIndex),
      idxGet (buildFileIndexFrom i m gs) k = some v →
      idxGet m k = some v ∨
        (idxGet m k = none ∧ ∃ j g, gs.get? j = some g ∧ v.grfIndex = i + j ∧
          v.originalPath ∈ g.listFiles ∧ genKey v.originalPath k ∧
          ∀ j2, j2 < j → ∀ g2, gs.get? j2 = some g2 →
            ∀ f ∈ g2.listFiles, ¬ genKey f k) := by
  intro gs
  induction gs with
  | nil => intro i m h; exact Or.inl h
  | cons g rest ih =>
      intro i m h
      rcases ih _ _ h with h1 | ⟨hnone, j, g2, hget, hidx, hmem, hk, hmin⟩
      · rcases foldl_indexOneFile_cases g.listFiles m h1 with h2 | ⟨hnone, hidx, hmem, hk⟩
        · exact Or.inl h2
        · right
          refine ⟨hnone, 0, g, rfl, by omega, hmem, hk, ?_⟩
          intro j2 hj2
          omega
      · right
        have hmnone : idxGet m k = none := by
          cases hg : idxGet m k with
          | none => rfl
          | some v3 =>
              rw [foldl_indexOneFile_preserve i g.listFiles m hg] at hnone
              cases hnone
        refine ⟨hmnone, j + 1, g2, by rw [List.get?_cons_succ]; exact hget, by omega, hmem, hk, ?_⟩
        intro j2 hj2 g3 hg3 f hf hkf
        cases j2 with
        | zero =>
            have hgg : g3 = g := by
              rw [List.get?_cons_zero] at hg3
              injection hg3 with hh
              exact hh.symm
            subst hgg
            have := foldl_indexOneFile_has i g3.listFiles m f hf hkf
            unfold idxHas at this
            rw [hnone] at this
            cases this
        | succ j3 =>
            rw [List.get?_cons_succ] at hg3
            exact hmin j3 (by omega) g3 hg3 f hf hkf

/-- C2. First insert wins in the unified index: a later binding of an
already-present key never overwrites the stored (archive, raw key) value;
every stored binding comes from the earliest archive in manifest order that
lists a name generating the key, with no earlier archive generating it; and
whatever entry resolution returns for a path is the entry of the earliest
archive containing one of the two normalized keys of that path. -/
theorem index_first_insert_wins :
    (∀ (m : FileIndex) (i : Nat) (f k : JSString) (v : IndexEntry),
        idxGet m k = some v → idxGet (indexOneFile i m f) k = some v) ∧
    (∀ (grfs : List GrfModel) (k : JSString) (e : IndexEntry),
        idxGet (buildFileIndex grfs) k = some e →
        ∃ g, grfs.get? e.grfIndex = some g ∧ e.originalPath ∈ g.listFiles ∧
          genKey e.originalPath k ∧
          ∀ j, j < e.grfIndex → ∀ g2, grfs.get? j = some g2 →
            ∀ f ∈ g2.listFiles, ¬ genKey f k) ∧
    (∀ (grfs : List GrfModel) (p : JSString) (e : IndexEntry),
        idxResolve grfs p = some e →
        ∃ k, (k = backslashToSlash (jsToLowerCase p) ∨
              k = slashToBackslash (jsToLowerCase p)) ∧
          ∃ g, grfs.get? e.grfIndex = some g ∧ e.originalPath ∈ g.listFiles ∧
            genKey e.originalPath k ∧
            ∀ j, j < e.grfIndex → ∀ g2, grfs.get? j = some g2 →
              ∀ f ∈ g2.listFiles, ¬ genKey f k) := by
  have hprov : ∀ (grfs : List GrfModel) (k : JSString) (e : IndexEntry),
      idxGet (buildFileIndex grfs) k = some e →
      ∃ g, grfs.get? e.grfIndex = some g ∧ e.originalPath ∈ g.listFiles ∧
        genKey e.originalPath k ∧
        ∀ j, j < e.grfIndex → ∀ g2, grfs.get? j = some g2 →
          ∀ f ∈ g2.listFiles, ¬ genKey f k := by
    intro grfs k e h
    rcases buildFrom_cases grfs 0 [] h with h1 | ⟨-, j, g, hget, hidx, hmem, hk, hmin⟩
    · simp [idxGet] at h1
    · have hj : j = e.grfIndex := by omega
      subst hj
      exact ⟨g, hget, hmem, hk, fun j2 hj2 g2 hg2 f hf => hmin j2 hj2 g2 hg2 f hf⟩
  refine ⟨fun m i f k v h => indexOneFile_preserve i f h, hprov, ?_⟩
  intro grfs p e h
  simp only [idxResolve] at h
  cases hg : idxGet (buildFileIndex grfs) (backslashToSlash (jsToLowerCase p)) with
  | some e2 =>
      rw [hg] at h
      simp only [Option.some.injEq] at h
      subst h
      exact ⟨_, Or.inl rfl, hprov grfs _ e2 hg⟩
  | none =>
      rw [hg] at h
      exact ⟨_, Or.inr rfl, hprov grfs _ e h⟩

/-- Witness for C2: two archives both listing data/mon.spr; the index keeps
the archive-0 entry, a later insert does not overwrite a present binding,
and resolution returns the archive-0 entry. -/
theorem index_first_insert_wins_witness :
    (idxGet [(jsStr "k", (⟨0, jsStr "f"⟩ : IndexEntry))] (jsStr "k") =
        some ⟨0, jsStr "f"⟩ ∧
      idxGet (indexOneFile 1 [(jsStr "k", ⟨0, jsStr "f"⟩)] (jsStr "k"))
        (jsStr "k") = some ⟨0, jsStr "f"⟩) ∧
    (idxGet (buildFileIndex [⟨[(jsStr "data/mon.spr", jsStr "A")]⟩,
        ⟨[(jsStr "data/mon.spr", jsStr "B")]⟩]) (jsStr "data/mon.spr") =
        some ⟨0, jsStr "data/mon.spr"⟩ ∧
      ∃ g, [(⟨[(jsStr "data/mon.spr", jsStr "A")]⟩ : GrfModel),
            ⟨[(jsStr "data/mon.spr", jsStr "B")]⟩].get?
          (⟨0, jsStr "data/mon.spr"⟩ : IndexEntry).grfIndex = some g ∧
        (⟨0, jsStr "data/mon.spr"⟩ : IndexEntry).originalPath ∈ g.listFiles ∧
        genKey (⟨0, jsStr "data/mon.spr"⟩ : IndexEntry).originalPath
          (jsStr "data/mon.spr") ∧
        ∀ j, j < (⟨0, jsStr "data/mon.spr"⟩ : IndexEntry).grfIndex →
          ∀ g2, [(⟨[(jsStr "data/mon.spr", jsStr "A")]⟩ : GrfModel),
              ⟨[(jsStr "data/mon.spr", jsStr "B")]⟩].get? j = some g2 →
            ∀ f ∈ g2.listFiles, ¬ genKey f (jsStr "data/mon.spr")) :=
  ⟨⟨by decide,
    index_first_insert_wins.1 [(jsStr "k", ⟨0, jsStr "f"⟩)] 1 (jsStr "k")
      (jsStr "k") ⟨0, jsStr "f"⟩ (by decide)⟩,
   by decide,
   index_first_insert_wins.2.1 [⟨[(jsStr "data/mon.spr", jsStr "A")]⟩,
      ⟨[(jsStr "data/mon.spr", jsStr "B")]⟩] (jsStr "data/mon.spr")
      ⟨0, jsStr "data/mon.spr"⟩ (by decide)⟩

theorem b2s_lower_flip (p : JSString) :
    backslashToSlash (jsToLowerCase (flipSlashes p)) =
      backslashToSlash (jsToLowerCase p) := by
  unfold backslashToSlash jsToLowerCase flipSlashes
  simp only [List.map_map]
  congr 1
  funext c
  simp only [Function.comp]
  by_cases h47 : c = 47
  · subst h47; decide
  · by_cases h92 : c = 92
    · subst h92; decide
    · rw [if_neg h47, if_neg h92]

theorem s2b_lower_flip (p : JSString) :
    slashToBackslash (jsToLowerCase (flipSlashes p)) =
      slashToBackslash (jsToLowerCase p) := by
  unfold slashToBackslash jsToLowerCase flipSlashes
  simp only [List.map_map]
  congr 1
  funext c
  simp only [Function.comp]
  by_cases h47 : c = 47
  · subst h47; decide
  · by_cases h92 : c = 92
    · subst h92; decide
    · rw [if_neg h47, if_neg h92]

/-- C1 amended. Every listed entry is indexed under exactly two keys, the
raw name lowercased with every backslash turned into a forward slash and
lowercased with every forward slash turned into a backslash; no slash-run
collapsing and no Unicode normalization are applied. Lookups probe the same
two computations of the requested path, so index resolution is unchanged
under flipping every slash of the path and under any change of ASCII case
(any two paths with the same lowercased form resolve identically); paths
that differ by slash-run collapsing or by Unicode renormalization may
resolve differently. -/
theorem index_slash_and_case_insensitive :
    (∀ (grfs : List GrfModel) (g : GrfModel) (f : JSString),
        g ∈ grfs → f ∈ g.listFiles →
        idxHas (buildFileIndex grfs) (backslashToSlash (jsToLowerCase f)) = true ∧
        idxHas (buildFileIndex grfs) (slashToBackslash (jsToLowerCase f)) = true) ∧
    (∀ (grfs : List GrfModel) (p : JSString),
        idxResolve grfs (flipSlashes p) = idxResolve grfs p) ∧
    (∀ (grfs : List GrfModel) (p q : JSString),
        jsToLowerCase p = jsToLowerCase q → idxResolve grfs p = idxResolve grfs q) := by
  refine ⟨?_, ?_, ?_⟩
  · intro grfs g f hg hf
    exact ⟨buildFrom_has grfs 0 [] g f hg hf (Or.inl rfl),
      buildFrom_has grfs 0 [] g f hg hf (Or.inr rfl)⟩
  · intro grfs p
    simp only [idxResolve]
    rw [b2s_lower_flip, s2b_lower_flip]
  · intro grfs p q h
    simp only [idxResolve]
    rw [h]

/-- Witness for C1 at scenario S1: the single entry is indexed under both
slash forms, resolution of the flipped path equals resolution of the
original, and two case variants of the path resolve identically. -/
theorem index_slash_and_case_insensitive_witness :
    ((⟨[(jsStr "data\\foo.txt", jsStr "hello")]⟩ : GrfModel) ∈ scenarioS1Grfs ∧
     jsStr "data\\foo.txt" ∈
       (⟨[(jsStr "data\\foo.txt", jsStr "hello")]⟩ : GrfModel).listFiles) ∧
    (idxHas (buildFileIndex scenarioS1Grfs)
        (backslashToSlash (jsToLowerCase (jsStr "data\\foo.txt"))) = true ∧
     idxHas (buildFileIndex scenarioS1Grfs)
        (slashToBackslash (jsToLowerCase (jsStr "data\\foo.txt"))) = true) ∧
    idxResolve scenarioS1Grfs (flipSlashes (jsStr "data/foo.txt")) =
      idxResolve scenarioS1Grfs (jsStr "data/foo.txt") ∧
    (jsToLowerCase (jsStr "DATA/FOO.TXT") = jsToLowerCase (jsStr "data/foo.txt") ∧
     idxResolve scenarioS1Grfs (jsStr "DATA/FOO.TXT") =
       idxResolve scenarioS1Grfs (jsStr "data/foo.txt")) :=
  ⟨⟨by decide, by decide⟩,
   index_slash_and_case_insensitive.1 scenarioS1Grfs
     ⟨[(jsStr "data\\foo.txt", jsStr "hello")]⟩ (jsStr "data\\foo.txt")
     (by decide) (by decide),
   index_slash_and_case_insensitive.2.1 scenarioS1Grfs (jsStr "data/foo.txt"),
   ⟨by decide,
    index_slash_and_case_insensitive.2.2 scenarioS1Grfs (jsStr "DATA/FOO.TXT")
      (jsStr "data/foo.txt") (by decide)⟩⟩
